import Mathlib

/-!
# object_sanitizer: `recursive_sanitize` (src/index.js, lines 106-158)

A shallow embedding of the JavaScript function `recursive_sanitize` over a
model of the values `JSON.parse` can produce (plus `undefined`), with the
thrown `TypeError` made explicit as `none`.
-/

namespace ObjectSanitizer

/-- A JavaScript value of the kind the sanitizer handles: `undefined`, or a
JSON datum.  An object is the list of its own properties in `Object.keys`
order; a number is modelled by an integer (the code only copies numbers and
tests them for truthiness); a string by a Lean string, one character per
UTF-16 unit.  Keys are taken not to name a member of a prototype (such as
`toString`, `constructor` or `__proto__`): only own properties are modelled. -/
inductive Value where
  | undefined : Value
  | null : Value
  | bool (b : Bool) : Value
  | num (n : Int) : Value
  | str (s : String) : Value
  | arr (items : List Value) : Value
  | obj (props : List (String × Value)) : Value

/-- The own properties of an object, in `Object.keys` order. -/
abbrev Props := List (String × Value)

mutual
/-- Structural equality test on values. -/
def Value.same : Value → Value → Bool
  | .undefined, .undefined => true
  | .null, .null => true
  | .bool a, .bool b => a == b
  | .num a, .num b => a == b
  | .str a, .str b => a == b
  | .arr xs, .arr ys => Value.sameItems xs ys
  | .obj ps, .obj qs => Value.sameProps ps qs
  | _, _ => false
/-- Structural equality test on lists of values. -/
def Value.sameItems : List Value → List Value → Bool
  | [], [] => true
  | x :: xs, y :: ys => Value.same x y && Value.sameItems xs ys
  | _, _ => false
/-- Structural equality test on property lists. -/
def Value.sameProps : List (String × Value) → List (String × Value) → Bool
  | [], [] => true
  | (k, v) :: ps, (l, w) :: qs => k == l && Value.same v w && Value.sameProps ps qs
  | _, _ => false
end

/-- The key the two-argument call uses for its holder (line 112). -/
def ROOT : String := "__sanitize_root__"

/-- JavaScript truthiness (`ToBoolean`) of a value. -/
def truthy : Value → Bool
  | .undefined => false
  | .null => false
  | .bool b => b
  | .num n => n != 0
  | .str s => s != ""
  | .arr _ => true
  | .obj _ => true

/-- `Array.isArray(v)`. -/
def isArray : Value → Bool
  | .arr _ => true
  | _ => false

/-- Own-property read `props[key]` on an object: the value stored under the
key, or `undefined`. -/
def lookup (key : String) : Props → Value
  | [] => .undefined
  | (k, v) :: rest => if k = key then v else lookup key rest

/-- Own-property test: does the object have the key? -/
def hasKey (key : String) (props : Props) : Bool :=
  props.any (fun kv => kv.1 = key)

/-- Assignment `props[key] = v` on an object: overwrite the property when it
exists, append it otherwise. -/
def assign (key : String) (v : Value) : Props → Props
  | [] => [(key, v)]
  | (k, w) :: rest => if k = key then (k, v) :: rest else (k, w) :: assign key v rest

/-- `Object.keys(o)` of an object given by its properties. -/
def keys (props : Props) : List String := props.map Prod.fst

/-- Element `items[key]` of an array for a key that is the decimal spelling of
an index below the length; `undefined` otherwise. -/
def indexed (key : String) (items : List Value) : Value :=
  match items.enum.find? (fun p => toString p.1 = key) with
  | some p => p.2
  | none => .undefined

/-- Property read `v[key]` (`unreliable[key]` of line 146, `unreliable.length`
of line 123).  Reading a property of `undefined` or `null` throws; numbers and
booleans have no own property; strings and arrays have `length` and their
indices.  Only own properties are modelled: the names of prototype members
(`constructor`, `toString`, `forEach`, ...) are taken not to occur as keys. -/
def getProp (v : Value) (key : String) : Option Value :=
  match v with
  | .undefined => none
  | .null => none
  | .bool _ => some .undefined
  | .num _ => some .undefined
  | .str s =>
      if key = "length" then some (.num s.length)
      else some (indexed key (s.toList.map (fun c => .str (String.singleton c))))
  | .arr items =>
      if key = "length" then some (.num items.length) else some (indexed key items)
  | .obj props => some (lookup key props)

/-- The nullish coalescing `a ?? b` of line 152. -/
def nullish (a b : Value) : Value :=
  match a with
  | .undefined => b
  | .null => b
  | _ => a

/-- The loop `unreliable.forEach(item => clone.push(f item))` of lines 124-128
on an array: the pushed values in order, or the first throw. -/
def forEachPush (f : Value → Option Value) : List Value → Option (List Value)
  | [] => some []
  | item :: rest =>
      match f item with
      | none => none
      | some v =>
          match forEachPush f rest with
          | none => none
          | some vs => some (v :: vs)

/-- The value returned at line 157, `sanitized.__sanitize_root__ || sanitized`,
for a holder `sanitized`. -/
def returned (sanitized : Props) : Value :=
  if truthy (lookup ROOT sanitized) then lookup ROOT sanitized else .obj sanitized

mutual
/-- The call `recursive_sanitize(unreliable, template, sanitized, key)` with all
four arguments (lines 115-153): the state of the holder `sanitized` when the
call ends, or `none` when it throws.  The value the call returns is `returned`
of that state. -/
def recursive_sanitize_into (unreliable template : Value) (sanitized : Props)
    (key : String) : Option Props :=
  match template with
  -- lines 133-136: empty template array; nothing is written for an array input
  | .arr [] =>
      if isArray unreliable then some sanitized
      else some (assign key (.arr []) sanitized)
  -- lines 120-132: non-empty template array
  | .arr (pattern :: rest) =>
      -- line 123: `unreliable.length`
      match getProp unreliable "length" with
      | none => none
      | some len =>
          if truthy len then
            -- lines 124-128: `unreliable.forEach`, a function on arrays only
            match unreliable with
            | .arr items =>
                match forEachPush
                    (fun item =>
                      (recursive_sanitize_into item pattern [] ROOT).map returned)
                    items with
                | none => none
                | some clone => some (assign key (.arr clone) sanitized)
            | _ => none
          -- line 131: `clone.push([...template])`
          else some (assign key (.arr [.arr (pattern :: rest)]) sanitized)
  -- lines 138-149: `typeof template === "object"`, an object
  | .obj props =>
      match sanitize_keys unreliable props [] with
      | none => none
      | some clone => some (assign key (.obj clone) sanitized)
  -- lines 138-142: `typeof null === "object"`, and `Object.keys(null)` throws
  | .null => none
  -- lines 151-153: any other template
  | .undefined => some (assign key (nullish unreliable .undefined) sanitized)
  | .bool b => some (assign key (nullish unreliable (.bool b)) sanitized)
  | .num n => some (assign key (nullish unreliable (.num n)) sanitized)
  | .str s => some (assign key (nullish unreliable (.str s)) sanitized)
/-- The loop of lines 144-148 over the properties of an object template:
for each key, `recursive_sanitize(unreliable[key], template[key], clone, key)`.
The properties are walked in `Object.keys` order, each pair being a key with
the value `template[key]` (`lookup_of_mem`).  The result is the state of
`clone` after the loop. -/
def sanitize_keys (unreliable : Value) (props : Props) (clone : Props) :
    Option Props :=
  match props with
  | [] => some clone
  | (key, sub) :: rest =>
      match getProp unreliable key with
      | none => none
      | some item =>
          match recursive_sanitize_into item sub clone key with
          | none => none
          | some clone1 => sanitize_keys unreliable rest clone1
end

/-- The call `recursive_sanitize(unreliable, template)` with two arguments:
lines 109-113 create the holder, line 157 unwraps it. -/
def recursive_sanitize (unreliable template : Value) : Option Value :=
  (recursive_sanitize_into unreliable template [] ROOT).map returned

mutual
/-- Well-formedness of the representation: every object in the value has
pairwise distinct keys (as every JavaScript object has). -/
def Value.wf : Value → Bool
  | .arr items => Value.wfItems items
  | .obj props => decide ((props.map Prod.fst).Nodup) && Value.wfProps props
  | _ => true
/-- Well-formedness of every element of an array. -/
def Value.wfItems : List Value → Bool
  | [] => true
  | x :: xs => Value.wf x && Value.wfItems xs
/-- Well-formedness of every property value of an object. -/
def Value.wfProps : List (String × Value) → Bool
  | [] => true
  | (_, v) :: rest => Value.wf v && Value.wfProps rest
end

mutual
/-- The result has no key the template lacks, at the top level and at every
nested object position: against an object template the result is an object,
each of its keys is a key of the template, and the value under a key obeys
the same against the template value under that key; against a non-empty array
template the result is an array, each element obeying the same against the
pattern `template[0]` or being the copy of the template array itself. -/
def OnlyTemplateKeys : Value → Value → Prop
  | .obj tprops, result =>
      ∃ rprops, result = .obj rprops ∧ (∀ k ∈ keys rprops, k ∈ keys tprops) ∧
        OnlyTemplateKeysProps tprops rprops
  | .arr (pattern :: rest), result =>
      ∃ items, result = .arr items ∧
        ∀ item ∈ items, OnlyTemplateKeys pattern item ∨ item = .arr (pattern :: rest)
  | _, _ => True
/-- For each template property whose key the result has, the result's value
under the key has only keys of the template's value. -/
def OnlyTemplateKeysProps : List (String × Value) → List (String × Value) → Prop
  | [], _ => True
  | (k, sub) :: rest, rprops =>
      (hasKey k rprops = true → OnlyTemplateKeys sub (lookup k rprops)) ∧
        OnlyTemplateKeysProps rest rprops
end

mutual
/-- A template each of whose arrays is uniform: the value is built from
objects with distinct keys, non-null scalars and non-empty arrays, and every
element of an array (met at the top level or under object keys) is returned
unchanged when it is sanitized against the array's first element. -/
def Selfsame : Value → Prop
  | .obj props => (keys props).Nodup ∧ SelfsameProps props
  | .arr (pattern :: rest) => ∀ e ∈ pattern :: rest, recursive_sanitize e pattern = some e
  | .bool _ => True
  | .num _ => True
  | .str _ => True
  | _ => False
/-- Every property value is `Selfsame`. -/
def SelfsameProps : List (String × Value) → Prop
  | [] => True
  | (_, v) :: rest => Selfsame v ∧ SelfsameProps rest
end

/-- How a run with a bound on the depth of its recursion ends: the bound is
reached, a `TypeError` is thrown, or the run is done with a value. -/
inductive Run (α : Type) where
  | outOfFuel : Run α
  | thrown : Run α
  | done (a : α) : Run α

/-- The loop `unreliable.forEach(item => clone.push(f item))` of lines 124-128
for a body with bounded recursion. -/
def forEachPushRun (f : Value → Run Value) : List Value → Run (List Value)
  | [] => .done []
  | item :: rest =>
      match f item with
      | .outOfFuel => .outOfFuel
      | .thrown => .thrown
      | .done v =>
          match forEachPushRun f rest with
          | .outOfFuel => .outOfFuel
          | .thrown => .thrown
          | .done vs => .done (v :: vs)

/-- The loop `keys.forEach(key => f key)` of lines 144-148 for a body with
bounded recursion that updates `clone`. -/
def forEachKeyRun (f : String → Props → Run Props) : List String → Props → Run Props
  | [], clone => .done clone
  | key :: rest, clone =>
      match f key clone with
      | .outOfFuel => .outOfFuel
      | .thrown => .thrown
      | .done clone1 => forEachKeyRun f rest clone1

/-- The four-argument call run as the recursive program it is, with no
appeal to the structure of the template: `fuel` bounds the depth of the nested
calls, the object branch walks `Object.keys(template)` and reads
`template[key]` (lines 142-148).  With enough fuel it gives the outcome of the
structural embedding (`recursive_sanitize_run_eq`). -/
def recursive_sanitize_run : Nat → Value → Value → Props → String → Run Props
  | 0, _, _, _, _ => .outOfFuel
  | fuel + 1, unreliable, template, sanitized, key =>
      match template with
      | .arr [] =>
          if isArray unreliable then .done sanitized
          else .done (assign key (.arr []) sanitized)
      | .arr (pattern :: rest) =>
          match getProp unreliable "length" with
          | none => .thrown
          | some len =>
              if truthy len then
                match unreliable with
                | .arr items =>
                    match forEachPushRun
                        (fun item =>
                          match recursive_sanitize_run fuel item pattern [] ROOT with
                          | .outOfFuel => .outOfFuel
                          | .thrown => .thrown
                          | .done holder => .done (returned holder))
                        items with
                    | .outOfFuel => .outOfFuel
                    | .thrown => .thrown
                    | .done clone => .done (assign key (.arr clone) sanitized)
                | _ => .thrown
              else .done (assign key (.arr [.arr (pattern :: rest)]) sanitized)
      | .obj props =>
          match forEachKeyRun
              (fun key clone =>
                match getProp unreliable key with
                | none => .thrown
                | some item => recursive_sanitize_run fuel item (lookup key props) clone key)
              (keys props) [] with
          | .outOfFuel => .outOfFuel
          | .thrown => .thrown
          | .done clone => .done (assign key (.obj clone) sanitized)
      | .null => .thrown
      | .undefined => .done (assign key (nullish unreliable .undefined) sanitized)
      | .bool b => .done (assign key (nullish unreliable (.bool b)) sanitized)
      | .num n => .done (assign key (nullish unreliable (.num n)) sanitized)
      | .str s => .done (assign key (nullish unreliable (.str s)) sanitized)

/-- The two-argument call run with bounded recursion depth. -/
def recursive_sanitize_bounded (fuel : Nat) (unreliable template : Value) : Run Value :=
  match recursive_sanitize_run fuel unreliable template [] ROOT with
  | .outOfFuel => .outOfFuel
  | .thrown => .thrown
  | .done holder => .done (returned holder)

/-- What a run gives for an outcome of the structural embedding. -/
def Run.ofOption {α : Type} : Option α → Run α
  | none => .thrown
  | some a => .done a

mutual
/-- Nesting depth of a value: `0` for a scalar, one more than the deepest
member for an array or an object. -/
def Value.depth : Value → Nat
  | .arr items => Value.depthItems items + 1
  | .obj props => Value.depthProps props + 1
  | _ => 0
/-- Depth of the deepest element of an array. -/
def Value.depthItems : List Value → Nat
  | [] => 0
  | x :: xs => max (Value.depth x) (Value.depthItems xs)
/-- Depth of the deepest property value of an object. -/
def Value.depthProps : List (String × Value) → Nat
  | [] => 0
  | (_, v) :: rest => max (Value.depth v) (Value.depthProps rest)
end

/-- The four-argument call writes the value `v` under the key, whatever the
holder and the key are. -/
def Stores (unreliable template v : Value) : Prop :=
  ∀ (sanitized : Props) (key : String),
    recursive_sanitize_into unreliable template sanitized key = some (assign key v sanitized)

mutual
/-- The walk of the template over the input meets no empty template array,
and wherever it meets a template array the input there is a non-empty array:
neither the fallback of line 131 nor the branch of lines 133-136 is taken. -/
def Regular : Value → Value → Prop
  | .arr [], _ => False
  | .arr (pattern :: _), unreliable =>
      ∃ items, unreliable = .arr items ∧ items ≠ [] ∧ ∀ item ∈ items, Regular pattern item
  | .obj props, unreliable => RegularProps props unreliable
  | _, _ => True
/-- `Regular` for each template property against what the input holds under
its key. -/
def RegularProps : List (String × Value) → Value → Prop
  | [], _ => True
  | (k, sub) :: rest, unreliable =>
      (∀ item, getProp unreliable k = some item → Regular sub item) ∧
        RegularProps rest unreliable
end

/-! ## Values with the identity of their containers

A second embedding of `recursive_sanitize`, over values in which every array
and object carries the identity it got when it was constructed.  The call
takes the next unused identity and gives each container it constructs
(`{}` of line 110, `[]` of lines 122 and 135, `[...template]` of line 131,
`{}` of line 140) the next one; a value that is stored as it is keeps its
identities.  Two containers are the same JavaScript object exactly when they
have the same identity.  Without the identities this is the first embedding
(`erase_recursive_sanitize`). -/

/-- A JavaScript value whose arrays and objects carry their identity. -/
inductive Node where
  | undefined : Node
  | null : Node
  | bool (b : Bool) : Node
  | num (n : Int) : Node
  | str (s : String) : Node
  | arr (id : Nat) (items : List Node) : Node
  | obj (id : Nat) (props : List (String × Node)) : Node

/-- The own properties of an object with identities. -/
abbrev NodeProps := List (String × Node)

/-- JavaScript truthiness of a value with identities. -/
def Node.truthy : Node → Bool
  | .undefined => false
  | .null => false
  | .bool b => b
  | .num n => n != 0
  | .str s => s != ""
  | .arr _ _ => true
  | .obj _ _ => true

/-- `Array.isArray(v)`. -/
def Node.isArray : Node → Bool
  | .arr _ _ => true
  | _ => false

/-- Own-property read on an object with identities. -/
def Node.lookup (key : String) : NodeProps → Node
  | [] => .undefined
  | (k, v) :: rest => if k = key then v else Node.lookup key rest

/-- Own-property test on an object with identities. -/
def Node.hasKey (key : String) (props : NodeProps) : Bool :=
  props.any (fun kv => kv.1 = key)

/-- Assignment `props[key] = v` on an object with identities. -/
def Node.assign (key : String) (v : Node) : NodeProps → NodeProps
  | [] => [(key, v)]
  | (k, w) :: rest =>
      if k = key then (k, v) :: rest else (k, w) :: Node.assign key v rest

/-- Element of an array under the decimal spelling of an index. -/
def Node.indexed (key : String) (items : List Node) : Node :=
  match items.enum.find? (fun p => toString p.1 = key) with
  | some p => p.2
  | none => .undefined

/-- Property read `v[key]`; the value read keeps its identities. -/
def Node.getProp (v : Node) (key : String) : Option Node :=
  match v with
  | .undefined => none
  | .null => none
  | .bool _ => some .undefined
  | .num _ => some .undefined
  | .str s =>
      if key = "length" then some (.num s.length)
      else some (Node.indexed key (s.toList.map (fun c => .str (String.singleton c))))
  | .arr _ items =>
      if key = "length" then some (.num items.length) else some (Node.indexed key items)
  | .obj _ props => some (Node.lookup key props)

/-- The nullish coalescing `a ?? b`: one of the two values, as it is. -/
def Node.nullish (a b : Node) : Node :=
  match a with
  | .undefined => b
  | .null => b
  | _ => a

/-- The loop of lines 124-128 for a body that constructs containers: the
next unused identity is passed from one item to the next. -/
def Node.forEachPush (f : Node → Nat → Option (Node × Nat)) :
    List Node → Nat → Option (List Node × Nat)
  | [], next => some ([], next)
  | item :: rest, next =>
      match f item next with
      | none => none
      | some (v, next1) =>
          match Node.forEachPush f rest next1 with
          | none => none
          | some (vs, next2) => some (v :: vs, next2)

/-- The value returned at line 157 for the holder of identity `holder`. -/
def Node.returned (holder : Nat) (sanitized : NodeProps) : Node :=
  if Node.truthy (Node.lookup ROOT sanitized) then Node.lookup ROOT sanitized
  else .obj holder sanitized

mutual
/-- The four-argument call on values with identities: the state of the holder
and the next unused identity when the call ends. -/
def Node.recursive_sanitize_into (unreliable template : Node) (sanitized : NodeProps)
    (key : String) (next : Nat) : Option (NodeProps × Nat) :=
  match template with
  -- lines 133-136: `[]` of line 135 is constructed for a non-array input
  | .arr _ [] =>
      if Node.isArray unreliable then some (sanitized, next)
      else some (Node.assign key (.arr next []) sanitized, next + 1)
  | .arr _ (pattern :: rest) =>
      match Node.getProp unreliable "length" with
      | none => none
      | some len =>
          if Node.truthy len then
            match unreliable with
            | .arr _ items =>
                -- line 122 constructs `clone`; each item's call constructs its holder
                match Node.forEachPush
                    (fun item n =>
                      (Node.recursive_sanitize_into item pattern [] ROOT (n + 1)).map
                        (fun r => (Node.returned n r.1, r.2)))
                    items (next + 1) with
                | none => none
                | some (clone, next1) => some (Node.assign key (.arr next clone) sanitized, next1)
            | _ => none
          -- line 131: `[...template]` is a new array of the template's own elements
          else
            some (Node.assign key (.arr next [.arr (next + 1) (pattern :: rest)]) sanitized,
              next + 2)
  -- line 140 constructs `clone`
  | .obj _ props =>
      match Node.sanitize_keys unreliable props [] (next + 1) with
      | none => none
      | some (clone, next1) => some (Node.assign key (.obj next clone) sanitized, next1)
  | .null => none
  -- line 152 stores `unreliable` or `template` as it is
  | .undefined => some (Node.assign key (Node.nullish unreliable .undefined) sanitized, next)
  | .bool b => some (Node.assign key (Node.nullish unreliable (.bool b)) sanitized, next)
  | .num n => some (Node.assign key (Node.nullish unreliable (.num n)) sanitized, next)
  | .str s => some (Node.assign key (Node.nullish unreliable (.str s)) sanitized, next)
/-- The loop of lines 144-148 on values with identities. -/
def Node.sanitize_keys (unreliable : Node) (props : NodeProps) (clone : NodeProps)
    (next : Nat) : Option (NodeProps × Nat) :=
  match props with
  | [] => some (clone, next)
  | (key, sub) :: rest =>
      match Node.getProp unreliable key with
      | none => none
      | some item =>
          match Node.recursive_sanitize_into item sub clone key next with
          | none => none
          | some (clone1, next1) => Node.sanitize_keys unreliable rest clone1 next1
end

/-- The two-argument call on values with identities: line 110 constructs the
holder, with the identity `next`. -/
def Node.recursive_sanitize (unreliable template : Node) (next : Nat) : Option (Node × Nat) :=
  (Node.recursive_sanitize_into unreliable template [] ROOT (next + 1)).map
    (fun r => (Node.returned next r.1, r.2))

mutual
/-- The identities of all the containers of a value. -/
def Node.ids : Node → List Nat
  | .arr id items => id :: Node.idsItems items
  | .obj id props => id :: Node.idsProps props
  | _ => []
/-- The identities of the containers of the elements of an array. -/
def Node.idsItems : List Node → List Nat
  | [] => []
  | x :: xs => Node.ids x ++ Node.idsItems xs
/-- The identities of the containers of the property values of an object. -/
def Node.idsProps : List (String × Node) → List Nat
  | [] => []
  | (_, v) :: rest => Node.ids v ++ Node.idsProps rest
end

mutual
/-- Every object of the value has pairwise distinct keys. -/
def Node.wf : Node → Bool
  | .arr _ items => Node.wfItems items
  | .obj _ props => decide ((props.map Prod.fst).Nodup) && Node.wfProps props
  | _ => true
/-- Well-formedness of every element. -/
def Node.wfItems : List Node → Bool
  | [] => true
  | x :: xs => Node.wf x && Node.wfItems xs
/-- Well-formedness of every property value. -/
def Node.wfProps : List (String × Node) → Bool
  | [] => true
  | (_, v) :: rest => Node.wf v && Node.wfProps rest
end

mutual
/-- The containers that the result holds at the array and object positions of
the template are fresh: against an object template the result is a fresh
object whose value under each key obeys the same against the template's value
there; against a non-empty array template it is a fresh array, each element
obeying the same against the pattern or being a fresh array of the
template's own elements (line 131); against the empty array template it is a
fresh empty array or object.  Nothing is said at a scalar position. -/
def Node.Built (fresh : Nat → Prop) : Node → Node → Prop
  | .obj _ tprops, result =>
      ∃ id rprops, result = .obj id rprops ∧ fresh id ∧ Node.BuiltProps fresh tprops rprops
  | .arr _ (pattern :: rest), result =>
      ∃ id items, result = .arr id items ∧ fresh id ∧
        ∀ item ∈ items, Node.Built fresh pattern item ∨
          ∃ copy, fresh copy ∧ item = .arr copy (pattern :: rest)
  | .arr _ [], result => ∃ id, fresh id ∧ (result = .arr id [] ∨ result = .obj id [])
  | _, _ => True
/-- `Built` for the value under each template key the result has. -/
def Node.BuiltProps (fresh : Nat → Prop) :
    List (String × Node) → List (String × Node) → Prop
  | [], _ => True
  | (k, sub) :: rest, rprops =>
      (Node.hasKey k rprops = true → Node.Built fresh sub (Node.lookup k rprops)) ∧
        Node.BuiltProps fresh rest rprops
end

mutual
/-- The value without the identities of its containers. -/
def Node.erase : Node → Value
  | .undefined => .undefined
  | .null => .null
  | .bool b => .bool b
  | .num n => .num n
  | .str s => .str s
  | .arr _ items => .arr (Node.eraseItems items)
  | .obj _ props => .obj (Node.eraseProps props)
/-- The elements without identities. -/
def Node.eraseItems : List Node → List Value
  | [] => []
  | x :: xs => Node.erase x :: Node.eraseItems xs
/-- The properties without identities. -/
def Node.eraseProps : List (String × Node) → List (String × Value)
  | [] => []
  | (k, v) :: rest => (k, Node.erase v) :: Node.eraseProps rest
end

/-! ## Decidable equality of values -/

mutual
theorem Value.same_sound : ∀ a b : Value, Value.same a b = true → a = b
  | .undefined, b => by cases b <;> simp [Value.same]
  | .null, b => by cases b <;> simp [Value.same]
  | .bool _, b => by cases b <;> simp [Value.same]
  | .num _, b => by cases b <;> simp [Value.same]
  | .str _, b => by cases b <;> simp [Value.same]
  | .arr xs, b => by
      cases b <;> simp [Value.same]
      exact Value.sameItems_sound xs _
  | .obj ps, b => by
      cases b <;> simp [Value.same]
      exact Value.sameProps_sound ps _
theorem Value.sameItems_sound :
    ∀ xs ys : List Value, Value.sameItems xs ys = true → xs = ys
  | [], ys => by cases ys <;> simp [Value.sameItems]
  | x :: xs, ys => by
      cases ys with
      | nil => simp [Value.sameItems]
      | cons y ys =>
          simp only [Value.sameItems, Bool.and_eq_true, List.cons.injEq]
          exact fun h => ⟨Value.same_sound x y h.1, Value.sameItems_sound xs ys h.2⟩
theorem Value.sameProps_sound :
    ∀ ps qs : List (String × Value), Value.sameProps ps qs = true → ps = qs
  | [], qs => by cases qs <;> simp [Value.sameProps]
  | (k, v) :: ps, qs => by
      cases qs with
      | nil => simp [Value.sameProps]
      | cons q qs =>
          obtain ⟨l, w⟩ := q
          simp only [Value.sameProps, Bool.and_eq_true, List.cons.injEq, Prod.mk.injEq,
            beq_iff_eq]
          exact fun h => ⟨⟨h.1.1, Value.same_sound v w h.1.2⟩, Value.sameProps_sound ps qs h.2⟩
end

mutual
theorem Value.same_refl : ∀ a : Value, Value.same a a = true
  | .undefined => by simp [Value.same]
  | .null => by simp [Value.same]
  | .bool _ => by simp [Value.same]
  | .num _ => by simp [Value.same]
  | .str _ => by simp [Value.same]
  | .arr xs => by simpa [Value.same] using Value.sameItems_refl xs
  | .obj ps => by simpa [Value.same] using Value.sameProps_refl ps
theorem Value.sameItems_refl : ∀ xs : List Value, Value.sameItems xs xs = true
  | [] => by simp [Value.sameItems]
  | x :: xs => by simp [Value.sameItems, Value.same_refl x, Value.sameItems_refl xs]
theorem Value.sameProps_refl : ∀ ps : List (String × Value), Value.sameProps ps ps = true
  | [] => by simp [Value.sameProps]
  | (k, v) :: ps => by simp [Value.sameProps, Value.same_refl v, Value.sameProps_refl ps]
end

instance : DecidableEq Value := fun a b =>
  if h : Value.same a b = true then isTrue (Value.same_sound a b h)
  else isFalse (fun e => h (e ▸ Value.same_refl a))

/-! ## Properties of the holder operations -/

theorem lookup_assign_self (key : String) (v : Value) (s : Props) :
    lookup key (assign key v s) = v := by
  induction s with
  | nil => simp [assign, lookup]
  | cons kv rest ih =>
      obtain ⟨k, w⟩ := kv
      by_cases h : k = key <;> simp [assign, lookup, h, ih]

theorem lookup_assign_ne {k key : String} (h : k ≠ key) (v : Value) (s : Props) :
    lookup k (assign key v s) = lookup k s := by
  induction s with
  | nil => simp [assign, lookup, Ne.symm h]
  | cons kv rest ih =>
      obtain ⟨k1, w⟩ := kv
      by_cases h1 : k1 = key
      · subst h1
        simp [assign, lookup, Ne.symm h]
      · by_cases h2 : k1 = k
        · subst h2
          simp [assign, lookup, h]
        · simp [assign, lookup, h1, h2, ih]

theorem mem_keys_assign (x key : String) (v : Value) (s : Props) :
    x ∈ keys (assign key v s) ↔ x = key ∨ x ∈ keys s := by
  induction s with
  | nil => simp [assign, keys]
  | cons kv rest ih =>
      obtain ⟨k1, w⟩ := kv
      by_cases h1 : k1 = key
      · subst h1
        simp [assign, keys]
      · simp only [keys] at ih
        simp only [assign, h1, if_false, keys, List.map_cons, List.mem_cons, ih]
        tauto

/-- In an object, each listed property is what a read of its key gives. -/
theorem lookup_of_mem (props : Props) (hnd : (keys props).Nodup) (k : String) (v : Value)
    (h : (k, v) ∈ props) : lookup k props = v := by
  induction props with
  | nil => simp at h
  | cons kv rest ih =>
      obtain ⟨k1, w⟩ := kv
      simp only [keys, List.map_cons, List.nodup_cons] at hnd
      rcases List.mem_cons.mp h with e | h
      · simp only [Prod.mk.injEq] at e
        simp [lookup, e.1, e.2]
      · have hne : k1 ≠ k := by
          rintro rfl
          exact hnd.1 (List.mem_map_of_mem Prod.fst h)
        simpa [lookup, hne] using ih hnd.2 h

theorem hasKey_iff (k : String) (s : Props) : hasKey k s = true ↔ k ∈ keys s := by
  induction s with
  | nil => simp [hasKey, keys]
  | cons kv rest ih =>
      simp only [hasKey, keys, List.any_cons, Bool.or_eq_true, decide_eq_true_eq,
        List.map_cons, List.mem_cons] at ih ⊢
      rw [ih]
      constructor
      · rintro (h | h)
        · exact Or.inl h.symm
        · exact Or.inr h
      · rintro (h | h)
        · exact Or.inl h.symm
        · exact Or.inr h

theorem hasKey_assign_ne {k key : String} (h : k ≠ key) (v : Value) (s : Props) :
    hasKey k (assign key v s) = hasKey k s := by
  rw [Bool.eq_iff_iff, hasKey_iff, hasKey_iff, mem_keys_assign]
  simp [h]

/-- Every way the four-argument call ends: it leaves the holder alone (empty
template array, array input), or assigns one value to the key. -/
theorem into_cases (u t : Value) (s : Props) (k : String) (s1 : Props)
    (h : recursive_sanitize_into u t s k = some s1) :
    (s1 = s ∧ t = .arr [] ∧ isArray u = true) ∨
      ∃ v, s1 = assign k v s ∧ recursive_sanitize_into u t [] ROOT = some [(ROOT, v)] := by
  cases t with
  | undefined | bool | num | str =>
      simp only [recursive_sanitize_into, Option.some.injEq] at h
      exact Or.inr ⟨_, h.symm, by simp [recursive_sanitize_into, assign]⟩
  | null => simp [recursive_sanitize_into] at h
  | arr items =>
      cases items with
      | nil =>
          by_cases hu : isArray u = true
          · simp only [recursive_sanitize_into, hu, if_true, Option.some.injEq] at h
            exact Or.inl ⟨h.symm, rfl, hu⟩
          · simp only [recursive_sanitize_into, hu, Bool.false_eq_true, if_false,
              Option.some.injEq] at h
            exact Or.inr ⟨_, h.symm, by simp [recursive_sanitize_into, hu, assign]⟩
      | cons p rest =>
          right
          simp only [recursive_sanitize_into] at h ⊢
          split at h
          · simp at h
          · split at h
            · split at h
              · split at h
                · simp at h
                · simp only [Option.some.injEq] at h
                  exact ⟨_, h.symm, by simp [assign, *]⟩
              · simp at h
            · simp only [Option.some.injEq] at h
              exact ⟨_, h.symm, by simp [assign, *]⟩
  | obj props =>
      right
      simp only [recursive_sanitize_into] at h ⊢
      split at h
      · simp at h
      · simp only [Option.some.injEq] at h
        exact ⟨_, h.symm, by simp [assign, *]⟩

/-- The loop over an array returns exactly when the body returns on every
item, and then holds the results in order. -/
theorem forEachPush_eq_some (f : Value → Option Value) (items vs : List Value) :
    forEachPush f items = some vs ↔ List.Forall₂ (fun item v => f item = some v) items vs := by
  induction items generalizing vs with
  | nil =>
      cases vs <;> simp [forEachPush]
  | cons item rest ih =>
      cases hf : f item with
      | none =>
          simp only [forEachPush, hf]
          constructor
          · intro h
            cases h
          · intro h
            cases h with
            | cons h1 _ => simp [hf] at h1
      | some v =>
          cases hr : forEachPush f rest with
          | none =>
              simp only [forEachPush, hf, hr]
              constructor
              · intro h
                cases h
              · intro h
                cases h with
                | cons _ h2 =>
                    have := (ih _).mpr h2
                    simp [hr] at this
          | some ws =>
              simp only [forEachPush, hf, hr, Option.some.injEq]
              constructor
              · rintro rfl
                exact List.Forall₂.cons hf ((ih ws).mp hr)
              · intro h
                cases h with
                | cons h1 h2 =>
                    have e1 := (ih _).mpr h2
                    rw [hr] at e1
                    rw [hf] at h1
                    simp only [Option.some.injEq] at e1 h1
                    rw [e1, h1]

theorem sanitize_keys_frame (u : Value) (props clone c : Props)
    (h : sanitize_keys u props clone = some c) (x : String) (hx : x ∉ keys props) :
    lookup x c = lookup x clone ∧ hasKey x c = hasKey x clone := by
  induction props generalizing clone with
  | nil =>
      simp only [sanitize_keys, Option.some.injEq] at h
      subst h
      exact ⟨rfl, rfl⟩
  | cons kt rest ih =>
      obtain ⟨k, t⟩ := kt
      simp only [keys, List.map_cons, List.mem_cons, not_or] at hx
      simp only [sanitize_keys] at h
      split at h
      · simp at h
      · split at h
        · simp at h
        · rename_i item _ clone1 h1
          have h2 := ih clone1 h hx.2
          rcases into_cases _ _ _ _ _ h1 with ⟨e, _⟩ | ⟨v, e, _⟩
          · rw [e] at h2
            exact h2
          · rw [e, lookup_assign_ne hx.1, hasKey_assign_ne hx.1] at h2
            exact h2

theorem sanitize_keys_subset (u : Value) (props clone c : Props)
    (h : sanitize_keys u props clone = some c) :
    ∀ x ∈ keys c, x ∈ keys clone ∨ x ∈ keys props := by
  induction props generalizing clone with
  | nil =>
      simp only [sanitize_keys, Option.some.injEq] at h
      subst h
      exact fun x hx => Or.inl hx
  | cons kt rest ih =>
      obtain ⟨k, t⟩ := kt
      simp only [sanitize_keys] at h
      split at h
      · simp at h
      · split at h
        · simp at h
        · rename_i item _ clone1 h1
          intro x hx
          have h2 := ih clone1 h x hx
          simp only [keys, List.map_cons, List.mem_cons] at h2 ⊢
          rcases into_cases _ _ _ _ _ h1 with ⟨e, _⟩ | ⟨v, e, _⟩
          · rw [e] at h2
            tauto
          · rw [e] at h2
            have h3 := mem_keys_assign x k v clone
            simp only [keys] at h3
            rw [h3] at h2
            tauto

theorem onlyTemplateKeysProps_of_forall (props r : Props)
    (h : ∀ kt ∈ props, hasKey kt.1 r = true → OnlyTemplateKeys kt.2 (lookup kt.1 r)) :
    OnlyTemplateKeysProps props r := by
  induction props with
  | nil => simp [OnlyTemplateKeysProps]
  | cons kt rest ih =>
      obtain ⟨k, t⟩ := kt
      simp only [OnlyTemplateKeysProps]
      exact ⟨h (k, t) (List.mem_cons_self _ _),
        ih (fun kt hkt => h kt (List.mem_cons_of_mem _ hkt))⟩

theorem onlyTemplateKeys_wrapper (t v : Value) (h : OnlyTemplateKeys t v)
    (hv : truthy v = false) : OnlyTemplateKeys t (.obj [(ROOT, v)]) := by
  cases t with
  | undefined | null | bool | num | str => simp [OnlyTemplateKeys]
  | arr items =>
      cases items with
      | nil => simp [OnlyTemplateKeys]
      | cons p rest =>
          simp only [OnlyTemplateKeys] at h
          obtain ⟨items, rfl, _⟩ := h
          simp [truthy] at hv
  | obj props =>
      simp only [OnlyTemplateKeys] at h
      obtain ⟨r, rfl, _⟩ := h
      simp [truthy] at hv

theorem forEachPush_mem (f : Value → Option Value) (items vs : List Value)
    (h : forEachPush f items = some vs) : ∀ v ∈ vs, ∃ item ∈ items, f item = some v := by
  rw [forEachPush_eq_some] at h
  induction h with
  | nil => simp
  | cons h1 _ ih =>
      intro v hv
      rcases List.mem_cons.mp hv with rfl | hv
      · exact ⟨_, List.mem_cons_self _ _, h1⟩
      · obtain ⟨item, hi, hf⟩ := ih v hv
        exact ⟨item, List.mem_cons_of_mem _ hi, hf⟩

mutual
/-- Whatever the four-argument call assigns has only keys of the template. -/
theorem into_onlyTemplateKeys (t u : Value) (s : Props) (k : String) (s1 : Props)
    (hwf : Value.wf t = true) (h : recursive_sanitize_into u t s k = some s1) :
    (s1 = s ∧ t = .arr []) ∨ ∃ v, s1 = assign k v s ∧ OnlyTemplateKeys t v := by
  match t with
  | .undefined | .bool _ | .num _ | .str _ =>
      simp only [recursive_sanitize_into, Option.some.injEq] at h
      exact Or.inr ⟨_, h.symm, by simp [OnlyTemplateKeys]⟩
  | .null => simp [recursive_sanitize_into] at h
  | .arr [] =>
      rcases into_cases _ _ _ _ _ h with ⟨e, _⟩ | ⟨v, e, _⟩
      · exact Or.inl ⟨e, rfl⟩
      · exact Or.inr ⟨v, e, by simp [OnlyTemplateKeys]⟩
  | .arr (p :: rest) =>
      right
      simp only [Value.wf, Value.wfItems, Bool.and_eq_true] at hwf
      simp only [recursive_sanitize_into] at h
      split at h
      · simp at h
      · split at h
        · split at h
          · split at h
            · simp at h
            · rename_i items _ clone hloop
              simp only [Option.some.injEq] at h
              refine ⟨_, h.symm, ?_⟩
              simp only [OnlyTemplateKeys]
              refine ⟨clone, rfl, ?_⟩
              intro v hv
              left
              obtain ⟨item, _, hf⟩ := forEachPush_mem _ _ _ hloop v hv
              cases hinto : recursive_sanitize_into item p [] ROOT with
              | none => simp [hinto] at hf
              | some s2 =>
                  simp only [hinto, Option.map_some', Option.some.injEq] at hf
                  subst hf
                  rcases into_onlyTemplateKeys p item [] ROOT s2 hwf.1 hinto with
                    ⟨_, e2⟩ | ⟨w, e1, hw⟩
                  · subst e2
                    simp [OnlyTemplateKeys]
                  · subst e1
                    by_cases htr : truthy w = true
                    · simpa [returned, assign, lookup, htr] using hw
                    · have hfalse : truthy w = false := by simpa using htr
                      simpa [returned, assign, lookup, hfalse] using
                        onlyTemplateKeys_wrapper p w hw hfalse
          · simp at h
        · simp only [Option.some.injEq] at h
          refine ⟨_, h.symm, ?_⟩
          simp only [OnlyTemplateKeys]
          exact ⟨_, rfl, fun item hi => Or.inr (by simpa using hi)⟩
  | .obj props =>
      right
      simp only [Value.wf, Bool.and_eq_true, decide_eq_true_eq] at hwf
      simp only [recursive_sanitize_into] at h
      split at h
      · simp at h
      · rename_i clone hkeys
        simp only [Option.some.injEq] at h
        refine ⟨_, h.symm, ?_⟩
        simp only [OnlyTemplateKeys]
        refine ⟨clone, rfl, ?_, ?_⟩
        · intro x hx
          rcases sanitize_keys_subset _ _ _ _ hkeys x hx with h1 | h1
          · simp [keys] at h1
          · exact h1
        · apply onlyTemplateKeysProps_of_forall
          intro kt hkt
          exact keys_onlyTemplateKeys props u [] clone hwf.1 hwf.2 hkeys kt hkt (by simp [keys])
/-- Whatever the loop over the template's keys leaves under a key it wrote
has only keys of the template's value there. -/
theorem keys_onlyTemplateKeys (props : Props) (u : Value) (clone c : Props)
    (hnd : (props.map Prod.fst).Nodup) (hwf : Value.wfProps props = true)
    (h : sanitize_keys u props clone = some c) :
    ∀ kt ∈ props, kt.1 ∉ keys clone → hasKey kt.1 c = true →
      OnlyTemplateKeys kt.2 (lookup kt.1 c) := by
  match props with
  | [] => simp
  | (k, t) :: rest =>
      simp only [List.map_cons, List.nodup_cons] at hnd
      simp only [Value.wfProps, Bool.and_eq_true] at hwf
      simp only [sanitize_keys] at h
      split at h
      · simp at h
      · split at h
        · simp at h
        · rename_i item _ _ clone1 h1
          have hstep := into_onlyTemplateKeys t item clone k clone1 hwf.1 h1
          intro kt hkt hfresh hhas
          rcases List.mem_cons.mp hkt with rfl | hkt
          · have hfr := sanitize_keys_frame _ _ _ _ h k (by simpa [keys] using hnd.1)
            simp only at hfresh hhas ⊢
            rw [hfr.1]
            rw [hfr.2] at hhas
            rcases hstep with ⟨e, _⟩ | ⟨v, e, hv⟩
            · rw [e, hasKey_iff] at hhas
              exact absurd hhas hfresh
            · rw [e, lookup_assign_self]
              exact hv
          · apply keys_onlyTemplateKeys rest u clone1 c hnd.2 hwf.2 h kt hkt _ hhas
            have hne : kt.1 ≠ k := by
              intro e
              apply hnd.1
              rw [← e]
              exact List.mem_map_of_mem _ hkt
            rcases hstep with ⟨e, _⟩ | ⟨v, e, _⟩
            · rw [e]
              exact hfresh
            · rw [e, mem_keys_assign]
              simp [hne, hfresh]
end

/-- C1 (code evaluated at the failing input): with the template `{numbers: []}`
and the input `{numbers: [1, 2]}` the call returns the empty object, which
lacks the template's key; with the template
`{id: 0, sometimes_present: {numbers: []}}` the nested object of the result
lacks `numbers`. -/
theorem shape_conformance_key_lost :
    recursive_sanitize (.obj [("numbers", .arr [.num 1, .num 2])])
        (.obj [("numbers", .arr [])]) = some (.obj []) ∧
      keys [] ≠ keys [("numbers", .arr [])] ∧
      recursive_sanitize
        (.obj [("id", .num 7), ("sometimes_present", .obj [("numbers", .arr [.num 1])])])
        (.obj [("id", .num 0), ("sometimes_present", .obj [("numbers", .arr [])])]) =
        some (.obj [("id", .num 7), ("sometimes_present", .obj [])]) := by
  decide

/-- C2 (code evaluated at the failing inputs): a falsy scalar input is not
returned itself; the call returns the holder object that wraps it under
`__sanitize_root__`, for `0` against `"x"`, `false` against `true` and `""`
against `"default"`. -/
theorem falsy_scalar_returns_holder :
    recursive_sanitize (.num 0) (.str "x") = some (.obj [(ROOT, .num 0)]) ∧
      recursive_sanitize (.bool false) (.bool true) = some (.obj [(ROOT, .bool false)]) ∧
      recursive_sanitize (.str "") (.str "default") = some (.obj [(ROOT, .str "")]) ∧
      Value.obj [(ROOT, .num 0)] ≠ .num 0 := by
  decide

/-- C5 (code evaluated at the failing inputs): the call throws for the input
`null` against the template `{a: 0}`, for the input `{a: null}` against
`{a: {b: 0}}`, and for the input `{list: null}` against `{list: [0]}`. -/
theorem not_total :
    recursive_sanitize .null (.obj [("a", .num 0)]) = none ∧
      recursive_sanitize (.obj [("a", .null)]) (.obj [("a", .obj [("b", .num 0)])]) = none ∧
      recursive_sanitize (.obj [("list", .null)]) (.obj [("list", .arr [.num 0])]) = none := by
  decide

/-- C6 (code evaluated at the failing input): sanitizing
`{id: 1, always_present: "dependable", sometimes_missing: "unreliable"}`
against `{id: 0, always_present: "", sometimes_missing: "",
sometimes_present: {numbers: []}}` throws; no default structure is produced
for the missing key `sometimes_present`. -/
theorem defaults_do_not_cascade :
    recursive_sanitize
        (.obj [("id", .num 1), ("always_present", .str "dependable"),
          ("sometimes_missing", .str "unreliable")])
        (.obj [("id", .num 0), ("always_present", .str ""), ("sometimes_missing", .str ""),
          ("sometimes_present", .obj [("numbers", .arr [])])]) = none := by
  decide

/-- C7 (code evaluated at the failing inputs): against the template
`{tags: ["x"]}` the input `{}` throws, and against the template `["x"]` the
inputs `undefined`, `null` and the string `"a"` throw; none yields the
one-element array holding a copy of the template. -/
theorem missing_array_throws :
    recursive_sanitize (.obj []) (.obj [("tags", .arr [.str "x"])]) = none ∧
      recursive_sanitize .undefined (.arr [.str "x"]) = none ∧
      recursive_sanitize .null (.arr [.str "x"]) = none ∧
      recursive_sanitize (.str "a") (.arr [.str "x"]) = none := by
  decide

/-- C8: for every non-empty template array `T`, `recursive_sanitize([], T)`
returns the one-element array `[T]`, whose single element is the whole
template array. -/
theorem empty_input_array_fallback (T : List Value) (hT : T ≠ []) :
    recursive_sanitize (.arr []) (.arr T) = some (.arr [.arr T]) := by
  cases T with
  | nil => exact absurd rfl hT
  | cons p rest => rfl

/-- C8 (witness): the spec's `sanitize([], [{a:0}]) = [[{a:0}]]`. -/
theorem empty_input_array_fallback_witness :
    [Value.obj [("a", .num 0)]] ≠ [] ∧
      recursive_sanitize (.arr []) (.arr [.obj [("a", .num 0)]]) =
        some (.arr [.arr [.obj [("a", .num 0)]]]) :=
  ⟨by decide, empty_input_array_fallback [.obj [("a", .num 0)]] (by decide)⟩

/-- C9 (code evaluated at the failing inputs): `recursive_sanitize([1], [])`
returns the empty object, not an array; and with the template `{k: []}` and
the input `{k: [1, 2]}` the result is the empty object, without the key `k`. -/
theorem empty_template_array_not_forced :
    recursive_sanitize (.arr [.num 1]) (.arr []) = some (.obj []) ∧
      isArray (.obj []) = false ∧
      recursive_sanitize (.obj [("k", .arr [.num 1, .num 2])]) (.obj [("k", .arr [])]) =
        some (.obj []) ∧
      hasKey "k" [] = false := by
  decide

/-- Assigning a key the object lacks appends the property. -/
theorem assign_fresh (k : String) (v : Value) (s : Props) (h : k ∉ keys s) :
    assign k v s = s ++ [(k, v)] := by
  induction s with
  | nil => rfl
  | cons kv rest ih =>
      obtain ⟨k1, w⟩ := kv
      simp only [keys, List.map_cons, List.mem_cons, not_or] at h
      have hne : k1 ≠ k := fun e => h.1 e.symm
      simp only [assign, hne, if_false, List.cons_append, List.cons.injEq, true_and]
      exact ih h.2

/-- C14 (code evaluated at the failing inputs): with the template `{n: 5}` and
the input `{n: 0}` the value at `n` of the result is `0`, while the
two-argument call `recursive_sanitize(0, 5)` returns the holder
`{__sanitize_root__: 0}`; with the template `{k: []}` and the input `{k: [1]}`
the result has no value at `k`, while `recursive_sanitize([1], [])` returns
`{}`. -/
theorem key_value_differs_from_call :
    recursive_sanitize (.obj [("n", .num 0)]) (.obj [("n", .num 5)]) =
        some (.obj [("n", .num 0)]) ∧
      recursive_sanitize (lookup "n" [("n", .num 0)]) (lookup "n" [("n", .num 5)]) =
        some (.obj [(ROOT, .num 0)]) ∧
      recursive_sanitize (.obj [("k", .arr [.num 1])]) (.obj [("k", .arr [])]) =
        some (.obj []) ∧
      recursive_sanitize (lookup "k" [("k", .arr [.num 1])]) (lookup "k" [("k", .arr [])]) =
        some (.obj []) ∧
      lookup "k" [] = .undefined := by
  decide

/-- C15 (code evaluated at the failing inputs): against the template
`{tags: ["x"]}` the input `{tags: ["a", ""]}` gives
`{tags: ["a", {__sanitize_root__: ""}]}` and the input `{tags: [0, false]}`
gives `{tags: [{__sanitize_root__: 0}, {__sanitize_root__: false}]}`: the falsy
elements do not pass through. -/
theorem falsy_elements_wrapped :
    recursive_sanitize (.obj [("tags", .arr [.str "a", .str ""])])
        (.obj [("tags", .arr [.str "x"])]) =
        some (.obj [("tags", .arr [.str "a", .obj [(ROOT, .str "")]])]) ∧
      recursive_sanitize (.obj [("tags", .arr [.num 0, .bool false])])
        (.obj [("tags", .arr [.str "x"])]) =
        some (.obj [("tags", .arr [.obj [(ROOT, .num 0)], .obj [(ROOT, .bool false)]])]) := by
  decide

/-- C16 (code evaluated at the failing inputs): a null template throws, at the
top level for the inputs `5`, `null` and `undefined`, and as the value of a
key for the input `{a: 5}` against `{a: null}`. -/
theorem null_template_throws :
    recursive_sanitize (.num 5) .null = none ∧
      recursive_sanitize .null .null = none ∧
      recursive_sanitize .undefined .null = none ∧
      recursive_sanitize (.obj [("a", .num 5)]) (.obj [("a", .null)]) = none := by
  decide

mutual
/-- Written under a key, a `Selfsame` template sanitized against itself is
stored as it is. -/
theorem into_selfsame (t : Value) (s : Props) (k : String) (h : Selfsame t) :
    recursive_sanitize_into t t s k = some (assign k t s) := by
  match t with
  | .undefined | .null => simp [Selfsame] at h
  | .bool _ | .num _ | .str _ => simp [recursive_sanitize_into, nullish]
  | .arr [] => simp [Selfsame] at h
  | .arr (p :: rest) =>
      simp only [Selfsame] at h
      have hloop : forEachPush
          (fun item => (recursive_sanitize_into item p [] ROOT).map returned) (p :: rest) =
          some (p :: rest) := by
        rw [forEachPush_eq_some]
        exact List.forall₂_same.mpr h
      have hlen : truthy (.num (((p :: rest).length : Nat) : Int)) = true := by
        simp [truthy]; omega
      simp only [recursive_sanitize_into, getProp, if_true, hlen, hloop]
  | .obj props =>
      simp only [Selfsame] at h
      have hkeys := keys_selfsame props (.obj props) [] h.2
        (fun kv hkv => by
          simp only [getProp, Option.some.injEq]
          exact lookup_of_mem props h.1 kv.1 kv.2 hkv)
        h.1 (by simp [keys])
      simp only [List.nil_append] at hkeys
      simp only [recursive_sanitize_into, hkeys]
/-- The loop over `Selfsame` template values that the input holds under the
same keys appends them as they are. -/
theorem keys_selfsame (props : Props) (u : Value) (clone : Props) (h : SelfsameProps props)
    (hget : ∀ kv ∈ props, getProp u kv.1 = some kv.2) (hnd : (keys props).Nodup)
    (hdis : ∀ k ∈ keys props, k ∉ keys clone) :
    sanitize_keys u props clone = some (clone ++ props) := by
  match props with
  | [] => simp [sanitize_keys]
  | (k, t) :: rest =>
      simp only [SelfsameProps] at h
      simp only [keys, List.map_cons, List.nodup_cons] at hnd
      have hk : k ∉ keys clone := hdis k (by simp [keys])
      have hg : getProp u k = some t := hget (k, t) (List.mem_cons_self _ _)
      simp only [sanitize_keys, hg, into_selfsame t clone k h.1, assign_fresh k t clone hk]
      rw [keys_selfsame rest u (clone ++ [(k, t)]) h.2
        (fun kv hkv => hget kv (List.mem_cons_of_mem _ hkv)) hnd.2]
      · simp
      · intro x hx
        simp only [keys, List.map_append, List.map_cons, List.map_nil, List.mem_append,
          List.mem_singleton, not_or]
        refine ⟨hdis x (by simp only [keys, List.map_cons, List.mem_cons]; exact Or.inr hx), ?_⟩
        rintro rfl
        exact hnd.1 hx
end

theorem depth_lookup_le (key : String) (props : Props) :
    Value.depth (lookup key props) ≤ Value.depthProps props := by
  induction props with
  | nil => simp [lookup, Value.depth]
  | cons kv rest ih =>
      obtain ⟨k, v⟩ := kv
      by_cases h : k = key
      · simp [lookup, Value.depthProps, h]
      · simp only [lookup, h, if_false, Value.depthProps]
        exact le_trans ih (le_max_right _ _)

theorem forEachPushRun_finishes (f : Value → Run Value) (items : List Value)
    (h : ∀ item, f item ≠ .outOfFuel) : forEachPushRun f items ≠ .outOfFuel := by
  induction items with
  | nil => simp [forEachPushRun]
  | cons item rest ih =>
      have hi := h item
      simp only [forEachPushRun]
      split
      · contradiction
      · simp
      · split
        · contradiction
        · simp
        · simp

theorem forEachKeyRun_finishes (f : String → Props → Run Props) (ks : List String)
    (clone : Props) (h : ∀ key c, f key c ≠ .outOfFuel) :
    forEachKeyRun f ks clone ≠ .outOfFuel := by
  induction ks generalizing clone with
  | nil => simp [forEachKeyRun]
  | cons key rest ih =>
      have hi := h key clone
      simp only [forEachKeyRun]
      split
      · contradiction
      · simp
      · exact ih _

/-- With fuel above the template's nesting depth the four-argument call ends:
each nested call is made on a member of the template, of smaller depth. -/
theorem recursive_sanitize_run_finishes (fuel : Nat) (u t : Value) (s : Props) (k : String)
    (h : Value.depth t < fuel) : recursive_sanitize_run fuel u t s k ≠ .outOfFuel := by
  induction fuel generalizing u t s k with
  | zero => omega
  | succ n ih =>
      cases t with
      | undefined | null | bool | num | str => simp [recursive_sanitize_run]
      | arr items =>
          cases items with
          | nil =>
              simp only [recursive_sanitize_run]
              split <;> simp
          | cons p rest =>
              have hp : Value.depth p < n := by
                simp only [Value.depth, Value.depthItems] at h
                omega
              have hloop := fun items => forEachPushRun_finishes
                (fun item =>
                  match recursive_sanitize_run n item p [] ROOT with
                  | .outOfFuel => .outOfFuel
                  | .thrown => .thrown
                  | .done holder => .done (returned holder))
                items (fun item => by
                  have hi := ih item p [] ROOT hp
                  beta_reduce
                  split
                  · contradiction
                  · simp
                  · simp)
              simp only [recursive_sanitize_run]
              split
              · simp
              · split
                · split
                  · have := hloop ‹_›
                    split
                    · contradiction
                    · simp
                    · simp
                  · simp
                · simp
      | obj props =>
          have hloop := forEachKeyRun_finishes
            (fun key clone =>
              match getProp u key with
              | none => .thrown
              | some item => recursive_sanitize_run n item (lookup key props) clone key)
            (keys props) [] (fun key c => by
              beta_reduce
              split
              · simp
              · apply ih
                have := depth_lookup_le key props
                simp only [Value.depth] at h
                omega)
          simp only [recursive_sanitize_run]
          split
          · contradiction
          · simp
          · simp

theorem recursive_sanitize_run_arr (fuel : Nat) (u p : Value) (rest : List Value)
    (s : Props) (k : String) :
    recursive_sanitize_run (fuel + 1) u (.arr (p :: rest)) s k =
      match getProp u "length" with
      | none => .thrown
      | some len =>
          if truthy len then
            match u with
            | .arr items =>
                match forEachPushRun
                    (fun item =>
                      match recursive_sanitize_run fuel item p [] ROOT with
                      | .outOfFuel => .outOfFuel
                      | .thrown => .thrown
                      | .done holder => .done (returned holder))
                    items with
                | .outOfFuel => .outOfFuel
                | .thrown => .thrown
                | .done clone => .done (assign k (.arr clone) s)
            | _ => .thrown
          else .done (assign k (.arr [.arr (p :: rest)]) s) := by
  cases u <;> rfl

theorem recursive_sanitize_run_obj (fuel : Nat) (u : Value) (props s : Props) (k : String) :
    recursive_sanitize_run (fuel + 1) u (.obj props) s k =
      match forEachKeyRun
          (fun key clone =>
            match getProp u key with
            | none => .thrown
            | some item => recursive_sanitize_run fuel item (lookup key props) clone key)
          (keys props) [] with
      | .outOfFuel => .outOfFuel
      | .thrown => .thrown
      | .done clone => .done (assign k (.obj clone) s) := by
  rfl

/-- Above the template's nesting depth, more fuel changes nothing. -/
theorem recursive_sanitize_run_succ (fuel : Nat) (u t : Value) (s : Props) (k : String)
    (h : Value.depth t < fuel) :
    recursive_sanitize_run (fuel + 1) u t s k = recursive_sanitize_run fuel u t s k := by
  induction fuel generalizing u t s k with
  | zero => omega
  | succ n ih =>
      cases t with
      | undefined | null | bool | num | str => simp [recursive_sanitize_run]
      | arr items =>
          cases items with
          | nil => simp [recursive_sanitize_run]
          | cons p rest =>
              have hp : Value.depth p < n := by
                simp only [Value.depth, Value.depthItems] at h
                omega
              have hf : (fun item =>
                  match recursive_sanitize_run (n + 1) item p [] ROOT with
                  | .outOfFuel => (Run.outOfFuel : Run Value)
                  | .thrown => .thrown
                  | .done holder => .done (returned holder)) =
                  (fun item =>
                  match recursive_sanitize_run n item p [] ROOT with
                  | .outOfFuel => (Run.outOfFuel : Run Value)
                  | .thrown => .thrown
                  | .done holder => .done (returned holder)) := by
                funext item
                rw [ih item p [] ROOT hp]
              rw [recursive_sanitize_run_arr (n + 1), recursive_sanitize_run_arr n, hf]
      | obj props =>
          have hf : (fun key clone =>
              match getProp u key with
              | none => (Run.thrown : Run Props)
              | some item =>
                  recursive_sanitize_run (n + 1) item (lookup key props) clone key) =
              (fun key clone =>
              match getProp u key with
              | none => (Run.thrown : Run Props)
              | some item => recursive_sanitize_run n item (lookup key props) clone key) := by
            funext key clone
            split
            · rfl
            · apply ih
              have := depth_lookup_le key props
              simp only [Value.depth] at h
              omega
          rw [recursive_sanitize_run_obj (n + 1), recursive_sanitize_run_obj n, hf]

theorem recursive_sanitize_run_stable (fuel : Nat) (u t : Value) (s : Props) (k : String)
    (h : Value.depth t < fuel) :
    recursive_sanitize_run fuel u t s k =
      recursive_sanitize_run (Value.depth t + 1) u t s k := by
  induction fuel with
  | zero => omega
  | succ n ih =>
      by_cases hn : Value.depth t < n
      · rw [recursive_sanitize_run_succ n u t s k hn, ih hn]
      · have : n = Value.depth t := by omega
        rw [this]

/-! ### The bounded run and the structural embedding agree -/

theorem forEachPushRun_ofOption (f : Value → Run Value) (g : Value → Option Value)
    (h : ∀ item, f item = Run.ofOption (g item)) (items : List Value) :
    forEachPushRun f items = Run.ofOption (forEachPush g items) := by
  induction items with
  | nil => rfl
  | cons item rest ih =>
      simp only [forEachPushRun, forEachPush, h item, ih]
      cases g item with
      | none => rfl
      | some v =>
          cases forEachPush g rest with
          | none => rfl
          | some vs => rfl

theorem wfProps_mem (props : Props) (h : Value.wfProps props = true) :
    ∀ kv ∈ props, Value.wf kv.2 = true := by
  induction props with
  | nil => simp
  | cons kv rest ih =>
      obtain ⟨k, v⟩ := kv
      simp only [Value.wfProps, Bool.and_eq_true] at h
      intro x hx
      rcases List.mem_cons.mp hx with rfl | hx
      · exact h.1
      · exact ih h.2 x hx

theorem depthProps_mem (props : Props) :
    ∀ kv ∈ props, Value.depth kv.2 ≤ Value.depthProps props := by
  induction props with
  | nil => simp
  | cons kv rest ih =>
      obtain ⟨k, v⟩ := kv
      intro x hx
      simp only [Value.depthProps]
      rcases List.mem_cons.mp hx with rfl | hx
      · exact le_max_left _ _
      · exact le_trans (ih x hx) (le_max_right _ _)

theorem forEachKeyRun_ofOption (n : Nat) (u : Value) (props suffix clone : Props)
    (hlook : ∀ kv ∈ suffix, lookup kv.1 props = kv.2)
    (hrun : ∀ kv ∈ suffix, ∀ item c,
      recursive_sanitize_run n item kv.2 c kv.1 =
        Run.ofOption (recursive_sanitize_into item kv.2 c kv.1)) :
    forEachKeyRun
        (fun key c =>
          match getProp u key with
          | none => .thrown
          | some item => recursive_sanitize_run n item (lookup key props) c key)
        (keys suffix) clone =
      Run.ofOption (sanitize_keys u suffix clone) := by
  induction suffix generalizing clone with
  | nil => rfl
  | cons kv rest ih =>
      obtain ⟨k, t⟩ := kv
      have h1 : lookup k props = t := hlook (k, t) (List.mem_cons_self _ _)
      have h2 := hrun (k, t) (List.mem_cons_self _ _)
      have ih2 := fun c => ih c (fun kv hkv => hlook kv (List.mem_cons_of_mem _ hkv))
        (fun kv hkv => hrun kv (List.mem_cons_of_mem _ hkv))
      simp only [keys, List.map_cons, forEachKeyRun, sanitize_keys, h1]
      cases getProp u k with
      | none => rfl
      | some item =>
          simp only [h2 item clone]
          cases recursive_sanitize_into item t clone k with
          | none => rfl
          | some c1 => exact ih2 c1

/-- On a template whose objects have distinct keys, the bounded run with fuel
above the template's depth gives the outcome of the structural embedding. -/
theorem recursive_sanitize_run_eq (fuel : Nat) (u t : Value) (s : Props) (k : String)
    (hwf : Value.wf t = true) (h : Value.depth t < fuel) :
    recursive_sanitize_run fuel u t s k = Run.ofOption (recursive_sanitize_into u t s k) := by
  induction fuel generalizing u t s k with
  | zero => omega
  | succ n ih =>
      cases t with
      | undefined | null | bool | num | str =>
          simp [recursive_sanitize_run, recursive_sanitize_into, Run.ofOption]
      | arr items =>
          cases items with
          | nil =>
              simp only [recursive_sanitize_run, recursive_sanitize_into]
              split <;> rfl
          | cons p rest =>
              have hp : Value.depth p < n := by
                simp only [Value.depth, Value.depthItems] at h
                omega
              have hwp : Value.wf p = true := by
                simp only [Value.wf, Value.wfItems, Bool.and_eq_true] at hwf
                exact hwf.1
              have hloop := forEachPushRun_ofOption
                (fun item =>
                  match recursive_sanitize_run n item p [] ROOT with
                  | .outOfFuel => .outOfFuel
                  | .thrown => .thrown
                  | .done holder => .done (returned holder))
                (fun item => (recursive_sanitize_into item p [] ROOT).map returned)
                (fun item => by
                  beta_reduce
                  rw [ih item p [] ROOT hwp hp]
                  cases recursive_sanitize_into item p [] ROOT <;> rfl)
              rw [recursive_sanitize_run_arr n]
              simp only [recursive_sanitize_into]
              cases getProp u "length" with
              | none => rfl
              | some len =>
                  by_cases hl : truthy len = true
                  · simp only [hl, if_true]
                    cases u with
                    | arr items =>
                        simp only [hloop items]
                        cases forEachPush
                          (fun item => (recursive_sanitize_into item p [] ROOT).map returned)
                          items <;> rfl
                    | _ => rfl
                  · simp only [hl, Bool.false_eq_true, if_false]
                    rfl
      | obj props =>
          simp only [Value.wf, Bool.and_eq_true, decide_eq_true_eq] at hwf
          have hkeys := forEachKeyRun_ofOption n u props props []
            (fun kv hkv => lookup_of_mem props hwf.1 kv.1 kv.2 hkv)
            (fun kv hkv item c => by
              apply ih
              · exact wfProps_mem props hwf.2 kv hkv
              · have := depthProps_mem props kv hkv
                simp only [Value.depth] at h
                omega)
          rw [recursive_sanitize_run_obj n, hkeys]
          simp only [recursive_sanitize_into]
          cases sanitize_keys u props [] <;> rfl

/-- The two-argument bounded run gives the outcome of `recursive_sanitize`. -/
theorem recursive_sanitize_bounded_eq (fuel : Nat) (u t : Value) (hwf : Value.wf t = true)
    (h : Value.depth t < fuel) :
    recursive_sanitize_bounded fuel u t = Run.ofOption (recursive_sanitize u t) := by
  simp only [recursive_sanitize_bounded, recursive_sanitize,
    recursive_sanitize_run_eq fuel u t [] ROOT hwf h]
  cases recursive_sanitize_into u t [] ROOT <;> rfl

/-- C11: for every input and template the two-argument call terminates: once
the bound on the recursion depth exceeds the nesting depth of the template the
run ends, by a return or a throw, with one outcome whatever the bound; each
nested call is made on `template[0]` or `template[key]`, a member of the
template. -/
theorem recursive_sanitize_terminates (unreliable template : Value) :
    ∃ outcome : Run Value, outcome ≠ .outOfFuel ∧
      ∀ fuel, Value.depth template < fuel →
        recursive_sanitize_bounded fuel unreliable template = outcome := by
  refine ⟨recursive_sanitize_bounded (Value.depth template + 1) unreliable template, ?_, ?_⟩
  · have h := recursive_sanitize_run_finishes (Value.depth template + 1) unreliable template
      [] ROOT (Nat.lt_succ_self _)
    simp only [recursive_sanitize_bounded]
    split
    · contradiction
    · simp
    · simp
  · intro fuel hfuel
    simp only [recursive_sanitize_bounded]
    rw [recursive_sanitize_run_stable fuel unreliable template [] ROOT hfuel]

/-! ## Sanitizing a result again -/

/-- What the call writes does not depend on the holder or the key. -/
theorem into_uniform (u t v : Value)
    (h : recursive_sanitize_into u t [] ROOT = some [(ROOT, v)]) : Stores u t v := by
  intro s k
  cases t with
  | undefined | bool | num | str =>
      simp only [recursive_sanitize_into, assign, Option.some.injEq, List.cons.injEq,
        Prod.mk.injEq, true_and, and_true] at h ⊢
      rw [h]
  | null => simp [recursive_sanitize_into] at h
  | arr items =>
      cases items with
      | nil =>
          by_cases hu : isArray u = true
          · simp [recursive_sanitize_into, hu] at h
          · simp only [recursive_sanitize_into, hu, Bool.false_eq_true, if_false, assign,
              Option.some.injEq, List.cons.injEq, Prod.mk.injEq, true_and, and_true] at h ⊢
            rw [h]
      | cons p rest =>
          simp only [recursive_sanitize_into] at h ⊢
          cases hlen : getProp u "length" with
          | none => simp [hlen] at h
          | some len =>
              simp only [hlen] at h ⊢
              by_cases htr : truthy len = true
              · simp only [htr, if_true] at h ⊢
                cases u with
                | arr items =>
                    simp only at h ⊢
                    cases hloop : forEachPush
                        (fun item => (recursive_sanitize_into item p [] ROOT).map returned)
                        items with
                    | none => simp [hloop] at h
                    | some clone =>
                        simp only [hloop, assign, Option.some.injEq, List.cons.injEq,
                          Prod.mk.injEq, true_and, and_true] at h ⊢
                        rw [h]
                | _ => simp at h
              · simp only [htr, Bool.false_eq_true, if_false, assign, Option.some.injEq,
                  List.cons.injEq, Prod.mk.injEq, true_and, and_true] at h ⊢
                rw [h]
  | obj props =>
      simp only [recursive_sanitize_into] at h ⊢
      cases hkeys : sanitize_keys u props [] with
      | none => simp [hkeys] at h
      | some clone =>
          simp only [hkeys, assign, Option.some.injEq, List.cons.injEq, Prod.mk.injEq,
            true_and, and_true] at h ⊢
          rw [h]

/-- Against a non-empty template array the value written is an array. -/
theorem into_array_shape (u p : Value) (rest : List Value) (w : Value)
    (h : recursive_sanitize_into u (.arr (p :: rest)) [] ROOT = some [(ROOT, w)]) :
    ∃ items, w = .arr items := by
  simp only [recursive_sanitize_into] at h
  cases hlen : getProp u "length" with
  | none => simp [hlen] at h
  | some len =>
      simp only [hlen] at h
      by_cases htr : truthy len = true
      · simp only [htr, if_true] at h
        cases u with
        | arr items =>
            simp only at h
            cases hloop : forEachPush
                (fun item => (recursive_sanitize_into item p [] ROOT).map returned) items with
            | none => simp [hloop] at h
            | some clone =>
                simp only [hloop, assign, Option.some.injEq, List.cons.injEq, Prod.mk.injEq,
                  true_and, and_true] at h
                exact ⟨clone, h.symm⟩
        | _ => simp at h
      · simp only [htr, Bool.false_eq_true, if_false, assign, Option.some.injEq,
          List.cons.injEq, Prod.mk.injEq, true_and, and_true] at h
        exact ⟨_, h.symm⟩

theorem regular_ne_empty (t u : Value) (h : Regular t u) : t ≠ .arr [] := by
  rintro rfl
  simp [Regular] at h

/-- A call that returns against a template other than `[]` writes one value,
the same for every holder and key. -/
theorem stores_of_into (u t : Value) (s : Props) (k : String) (s1 : Props)
    (h : recursive_sanitize_into u t s k = some s1) (ht : t ≠ .arr []) :
    ∃ v, s1 = assign k v s ∧ Stores u t v := by
  rcases into_cases u t s k s1 h with ⟨_, e, _⟩ | ⟨v, e, hv⟩
  · exact absurd e ht
  · exact ⟨v, e, into_uniform u t v hv⟩

/-- A falsy value is written by a scalar template only, and such a template
stores any object as it is. -/
theorem stores_object_of_falsy (u t w : Value) (h : Stores u t w) (hw : truthy w = false)
    (props : Props) : Stores (.obj props) t (.obj props) := by
  have h0 := h [] ROOT
  cases t with
  | undefined | bool | num | str =>
      intro s k
      simp [recursive_sanitize_into, nullish]
  | null => simp [recursive_sanitize_into] at h0
  | arr items =>
      exfalso
      cases items with
      | nil =>
          by_cases hu : isArray u = true
          · simp [recursive_sanitize_into, hu, assign] at h0
          · simp only [recursive_sanitize_into, hu, Bool.false_eq_true, if_false, assign,
              Option.some.injEq, List.cons.injEq, Prod.mk.injEq, true_and, and_true] at h0
            rw [← h0] at hw
            simp [truthy] at hw
      | cons p rest =>
          rcases into_array_shape u p rest w h0 with ⟨items, rfl⟩
          simp [truthy] at hw
  | obj tprops =>
      exfalso
      simp only [recursive_sanitize_into] at h0
      cases hkeys : sanitize_keys u tprops [] with
      | none => simp [hkeys] at h0
      | some clone =>
          simp only [hkeys, assign, Option.some.injEq, List.cons.injEq, Prod.mk.injEq,
            true_and, and_true] at h0
          rw [← h0] at hw
          simp [truthy] at hw

/-- A loop that starts from a holder without the template's keys appends one
property per key, each written by a call that is `Regular`. -/
theorem sanitize_keys_written (u : Value) (props pre c : Props) (hnd : (keys props).Nodup)
    (hfresh : ∀ k ∈ keys props, k ∉ keys pre) (hreg : RegularProps props u)
    (h : sanitize_keys u props pre = some c) :
    keys c = keys pre ++ keys props ∧
      ∀ kt ∈ props, ∃ item, getProp u kt.1 = some item ∧ Regular kt.2 item ∧
        Stores item kt.2 (lookup kt.1 c) := by
  induction props generalizing pre with
  | nil =>
      simp only [sanitize_keys, Option.some.injEq] at h
      subst h
      simp [keys]
  | cons kt rest ih =>
      obtain ⟨k, t⟩ := kt
      simp only [keys, List.map_cons, List.nodup_cons] at hnd
      simp only [RegularProps] at hreg
      simp only [sanitize_keys] at h
      cases hitem : getProp u k with
      | none => simp [hitem] at h
      | some item =>
          simp only [hitem] at h
          cases hinto : recursive_sanitize_into item t pre k with
          | none => simp [hinto] at h
          | some c1 =>
              simp only [hinto] at h
              have hr : Regular t item := hreg.1 item hitem
              obtain ⟨v, e, hv⟩ := stores_of_into item t pre k c1 hinto (regular_ne_empty t item hr)
              have hk : k ∉ keys pre := hfresh k (by simp [keys])
              rw [assign_fresh k v pre hk] at e
              subst e
              have hfresh2 : ∀ x ∈ keys rest, x ∉ keys (pre ++ [(k, v)]) := by
                intro x hx
                simp only [keys, List.map_append, List.map_cons, List.map_nil, List.mem_append,
                  List.mem_singleton, not_or]
                refine ⟨hfresh x (by simp only [keys, List.map_cons, List.mem_cons]
                                     exact Or.inr hx), ?_⟩
                rintro rfl
                exact hnd.1 hx
              obtain ⟨hkeys, hall⟩ := ih (pre ++ [(k, v)]) hnd.2 hfresh2 hreg.2 h
              refine ⟨by rw [hkeys]; simp [keys], ?_⟩
              intro kt hkt
              rcases List.mem_cons.mp hkt with rfl | hkt
              · have hfr := sanitize_keys_frame _ _ _ _ h k
                  (by simpa [keys] using hnd.1)
                refine ⟨item, hitem, hr, ?_⟩
                simp only
                rw [hfr.1, ← assign_fresh k v pre hk, lookup_assign_self]
                exact hv
              · exact hall kt hkt

/-- A loop whose every key reads a value that its template stores as it is
appends those values. -/
theorem sanitize_keys_rebuild (u : Value) (val : String → Value) (props pre : Props)
    (hnd : (keys props).Nodup) (hfresh : ∀ k ∈ keys props, k ∉ keys pre)
    (h : ∀ kt ∈ props, getProp u kt.1 = some (val kt.1) ∧ Stores (val kt.1) kt.2 (val kt.1)) :
    sanitize_keys u props pre = some (pre ++ props.map (fun kt => (kt.1, val kt.1))) := by
  induction props generalizing pre with
  | nil => simp [sanitize_keys]
  | cons kt rest ih =>
      obtain ⟨k, t⟩ := kt
      simp only [keys, List.map_cons, List.nodup_cons] at hnd
      have hk : k ∉ keys pre := hfresh k (by simp [keys])
      obtain ⟨hg, hst⟩ := h (k, t) (List.mem_cons_self _ _)
      simp only at hg hst
      simp only [sanitize_keys, hg, hst pre k, assign_fresh k (val k) pre hk]
      rw [ih (pre ++ [(k, val k)]) hnd.2 _ (fun kt hkt => h kt (List.mem_cons_of_mem _ hkt))]
      · simp
      · intro x hx
        simp only [keys, List.map_append, List.map_cons, List.map_nil, List.mem_append,
          List.mem_singleton, not_or]
        refine ⟨hfresh x (by simp only [keys, List.map_cons, List.mem_cons]; exact Or.inr hx), ?_⟩
        rintro rfl
        exact hnd.1 hx

/-- An object is the list of its keys, each with the value read under it. -/
theorem props_eq_map_lookup (c props : Props) (hk : keys c = keys props)
    (hnd : (keys c).Nodup) : c = props.map (fun kt => (kt.1, lookup kt.1 c)) := by
  induction c generalizing props with
  | nil =>
      cases props with
      | nil => rfl
      | cons kt rest => simp [keys] at hk
  | cons kv c1 ih =>
      obtain ⟨k, v⟩ := kv
      cases props with
      | nil => simp [keys] at hk
      | cons kt rest =>
          obtain ⟨k1, t⟩ := kt
          simp only [keys, List.map_cons, List.cons.injEq, List.nodup_cons] at hk hnd
          obtain ⟨rfl, hk⟩ := hk
          have hrest : rest.map (fun kt => (kt.1, lookup kt.1 ((k, v) :: c1))) =
              rest.map (fun kt => (kt.1, lookup kt.1 c1)) := by
            apply List.map_congr_left
            intro kt hkt
            have hne : k ≠ kt.1 := by
              rintro rfl
              apply hnd.1
              rw [hk]
              exact List.mem_map_of_mem Prod.fst hkt
            simp [lookup, hne]
          rw [List.map_cons, hrest, ← ih rest hk hnd.2]
          simp [lookup]

/-- Sanitized again against the pattern, what a `Regular` two-argument call
returned is returned as it is. -/
theorem returned_again (p item y : Value)
    (hP : ∀ u v, Regular p u → Stores u p v → Stores v p v) (hreg : Regular p item)
    (h : (recursive_sanitize_into item p [] ROOT).map returned = some y) :
    (recursive_sanitize_into y p [] ROOT).map returned = some y := by
  cases hinto : recursive_sanitize_into item p [] ROOT with
  | none => simp [hinto] at h
  | some hd =>
      simp only [hinto, Option.map_some', Option.some.injEq] at h
      obtain ⟨w, e, hw⟩ := stores_of_into item p [] ROOT hd hinto (regular_ne_empty p item hreg)
      subst e
      by_cases htr : truthy w = true
      · have hy : y = w := by simpa [returned, assign, lookup, htr] using h.symm
        subst hy
        rw [hP item y hreg hw [] ROOT]
        simp [returned, assign, lookup, htr]
      · have hfalse : truthy w = false := by simpa using htr
        have hy : y = .obj [(ROOT, w)] := by
          simpa [returned, assign, lookup, hfalse] using h.symm
        subst hy
        rw [stores_object_of_falsy item p w hw hfalse [(ROOT, w)] [] ROOT]
        simp [returned, assign, lookup, truthy]

mutual
/-- What a `Regular` call wrote is written again as it is when it is sanitized
against the same template. -/
theorem stores_again (t u v : Value) (hwf : Value.wf t = true) (hreg : Regular t u)
    (h : Stores u t v) : Stores v t v := by
  match t with
  | .undefined | .bool _ | .num _ | .str _ =>
      have h0 := h [] ROOT
      simp only [recursive_sanitize_into, assign, Option.some.injEq, List.cons.injEq,
        Prod.mk.injEq, true_and, and_true] at h0
      intro s k
      subst h0
      cases u <;> simp [recursive_sanitize_into, nullish]
  | .null =>
      have h0 := h [] ROOT
      simp [recursive_sanitize_into] at h0
  | .arr [] => simp [Regular] at hreg
  | .arr (p :: rest) =>
      simp only [Regular] at hreg
      obtain ⟨items, rfl, hne, hitems⟩ := hreg
      have hwp : Value.wf p = true := by
        simp only [Value.wf, Value.wfItems, Bool.and_eq_true] at hwf
        exact hwf.1
      have hlen : truthy (.num (items.length : Int)) = true := by
        cases items with
        | nil => exact absurd rfl hne
        | cons x xs => simp [truthy]; omega
      have h0 := h [] ROOT
      simp only [recursive_sanitize_into, getProp, if_true, hlen] at h0
      cases hloop : forEachPush
          (fun item => (recursive_sanitize_into item p [] ROOT).map returned) items with
      | none => simp [hloop] at h0
      | some vs =>
          simp only [hloop, assign, Option.some.injEq, List.cons.injEq, Prod.mk.injEq,
            true_and, and_true] at h0
          subst h0
          have hsame : forEachPush
              (fun item => (recursive_sanitize_into item p [] ROOT).map returned) vs =
              some vs := by
            rw [forEachPush_eq_some]
            apply List.forall₂_same.mpr
            intro y hy
            obtain ⟨item, hi, hf⟩ := forEachPush_mem _ _ _ hloop y hy
            exact returned_again p item y (fun u v hr hs => stores_again p u v hwp hr hs)
              (hitems item hi) hf
          have hlen2 : truthy (.num (vs.length : Int)) = true := by
            have := ((forEachPush_eq_some _ _ _).mp hloop).length_eq
            rw [← this]
            exact hlen
          intro s k
          simp only [recursive_sanitize_into, getProp, if_true, hlen2, hsame]
  | .obj props =>
      simp only [Regular] at hreg
      simp only [Value.wf, Bool.and_eq_true, decide_eq_true_eq] at hwf
      have hnd : (keys props).Nodup := hwf.1
      have h0 := h [] ROOT
      simp only [recursive_sanitize_into] at h0
      cases hkeys : sanitize_keys u props [] with
      | none => simp [hkeys] at h0
      | some clone =>
          simp only [hkeys, assign, Option.some.injEq, List.cons.injEq, Prod.mk.injEq,
            true_and, and_true] at h0
          subst h0
          obtain ⟨hk, hall⟩ := sanitize_keys_written u props [] clone hnd (by simp [keys])
            hreg hkeys
          simp only [keys, List.map_nil, List.nil_append] at hk
          have hndc : (keys clone).Nodup := by
            simp only [keys]
            rw [hk]
            exact hnd
          have hre := sanitize_keys_rebuild (.obj clone) (fun key => lookup key clone) props []
            hnd (by simp [keys])
            (fun kt hkt => by
              obtain ⟨item, _, hr, hst⟩ := hall kt hkt
              exact ⟨rfl, stores_again_props props hwf.2 kt hkt item _ hr hst⟩)
          rw [List.nil_append, ← props_eq_map_lookup clone props hk hndc] at hre
          intro s k
          simp only [recursive_sanitize_into, hre]
/-- The same for every property value of an object template. -/
theorem stores_again_props (props : Props) (hwf : Value.wfProps props = true) :
    ∀ kt ∈ props, ∀ u v, Regular kt.2 u → Stores u kt.2 v → Stores v kt.2 v := by
  match props with
  | [] => simp
  | (k, t) :: rest =>
      simp only [Value.wfProps, Bool.and_eq_true] at hwf
      intro kt hkt u v hr hs
      rcases List.mem_cons.mp hkt with rfl | hkt
      · exact stores_again t u v hwf.1 hr hs
      · exact stores_again_props rest hwf.2 kt hkt u v hr hs
end

theorem node_lookup_assign_self (key : String) (v : Node) (s : NodeProps) :
    Node.lookup key (Node.assign key v s) = v := by
  induction s with
  | nil => simp [Node.assign, Node.lookup]
  | cons kv rest ih =>
      obtain ⟨k, w⟩ := kv
      by_cases h : k = key <;> simp [Node.assign, Node.lookup, h, ih]

theorem node_lookup_assign_ne {k key : String} (h : k ≠ key) (v : Node) (s : NodeProps) :
    Node.lookup k (Node.assign key v s) = Node.lookup k s := by
  induction s with
  | nil => simp [Node.assign, Node.lookup, Ne.symm h]
  | cons kv rest ih =>
      obtain ⟨k1, w⟩ := kv
      by_cases h1 : k1 = key
      · subst h1
        simp [Node.assign, Node.lookup, Ne.symm h]
      · by_cases h2 : k1 = k
        · subst h2
          simp [Node.assign, Node.lookup, h]
        · simp [Node.assign, Node.lookup, h1, h2, ih]

theorem node_mem_keys_assign (x key : String) (v : Node) (s : NodeProps) :
    x ∈ (Node.assign key v s).map Prod.fst ↔ x = key ∨ x ∈ s.map Prod.fst := by
  induction s with
  | nil => simp [Node.assign]
  | cons kv rest ih =>
      obtain ⟨k1, w⟩ := kv
      by_cases h1 : k1 = key
      · subst h1
        simp [Node.assign]
      · simp only [Node.assign, h1, if_false, List.map_cons, List.mem_cons, ih]
        tauto

theorem node_hasKey_iff (k : String) (s : NodeProps) :
    Node.hasKey k s = true ↔ k ∈ s.map Prod.fst := by
  induction s with
  | nil => simp [Node.hasKey]
  | cons kv rest ih =>
      simp only [Node.hasKey, List.any_cons, Bool.or_eq_true, decide_eq_true_eq,
        List.map_cons, List.mem_cons] at ih ⊢
      rw [ih]
      constructor
      · rintro (h | h)
        · exact Or.inl h.symm
        · exact Or.inr h
      · rintro (h | h)
        · exact Or.inl h.symm
        · exact Or.inr h

theorem node_hasKey_assign_ne {k key : String} (h : k ≠ key) (v : Node) (s : NodeProps) :
    Node.hasKey k (Node.assign key v s) = Node.hasKey k s := by
  rw [Bool.eq_iff_iff, node_hasKey_iff, node_hasKey_iff, node_mem_keys_assign]
  simp [h]

/-- The call leaves the holder alone or assigns one value to the key. -/
theorem node_into_cases (u t : Node) (s : NodeProps) (k : String) (next : Nat)
    (s1 : NodeProps) (next1 : Nat)
    (h : Node.recursive_sanitize_into u t s k next = some (s1, next1)) :
    s1 = s ∨ ∃ v, s1 = Node.assign k v s := by
  cases t with
  | undefined | bool | num | str =>
      simp only [Node.recursive_sanitize_into, Option.some.injEq, Prod.mk.injEq] at h
      exact Or.inr ⟨_, h.1.symm⟩
  | null => simp [Node.recursive_sanitize_into] at h
  | arr tid items =>
      cases items with
      | nil =>
          by_cases hu : Node.isArray u = true
          · simp only [Node.recursive_sanitize_into, hu, if_true, Option.some.injEq,
              Prod.mk.injEq] at h
            exact Or.inl h.1.symm
          · simp only [Node.recursive_sanitize_into, hu, Bool.false_eq_true, if_false,
              Option.some.injEq, Prod.mk.injEq] at h
            exact Or.inr ⟨_, h.1.symm⟩
      | cons p rest =>
          right
          simp only [Node.recursive_sanitize_into] at h
          cases hlen : Node.getProp u "length" with
          | none => simp [hlen] at h
          | some len =>
              simp only [hlen] at h
              by_cases htr : Node.truthy len = true
              · simp only [htr, if_true] at h
                cases u with
                | arr uid items =>
                    simp only at h
                    cases hloop : Node.forEachPush
                        (fun item n =>
                          (Node.recursive_sanitize_into item p [] ROOT (n + 1)).map
                            (fun r => (Node.returned n r.1, r.2)))
                        items (next + 1) with
                    | none => simp [hloop] at h
                    | some r =>
                        simp only [hloop, Option.some.injEq, Prod.mk.injEq] at h
                        exact ⟨_, h.1.symm⟩
                | _ => simp at h
              · simp only [htr, Bool.false_eq_true, if_false, Option.some.injEq,
                  Prod.mk.injEq] at h
                exact ⟨_, h.1.symm⟩
  | obj tid props =>
      right
      simp only [Node.recursive_sanitize_into] at h
      cases hkeys : Node.sanitize_keys u props [] (next + 1) with
      | none => simp [hkeys] at h
      | some r =>
          simp only [hkeys, Option.some.injEq, Prod.mk.injEq] at h
          exact ⟨_, h.1.symm⟩

theorem node_sanitize_keys_frame (u : Node) (props clone : NodeProps) (next : Nat)
    (c : NodeProps) (next1 : Nat) (h : Node.sanitize_keys u props clone next = some (c, next1))
    (x : String) (hx : x ∉ props.map Prod.fst) :
    Node.lookup x c = Node.lookup x clone ∧ Node.hasKey x c = Node.hasKey x clone := by
  induction props generalizing clone next with
  | nil =>
      simp only [Node.sanitize_keys, Option.some.injEq, Prod.mk.injEq] at h
      rw [h.1]
      exact ⟨rfl, rfl⟩
  | cons kt rest ih =>
      obtain ⟨k, t⟩ := kt
      simp only [List.map_cons, List.mem_cons, not_or] at hx
      simp only [Node.sanitize_keys] at h
      cases hitem : Node.getProp u k with
      | none => simp [hitem] at h
      | some item =>
          simp only [hitem] at h
          cases hinto : Node.recursive_sanitize_into item t clone k next with
          | none => simp [hinto] at h
          | some r =>
              obtain ⟨c1, n1⟩ := r
              simp only [hinto] at h
              have h2 := ih c1 n1 h hx.2
              rcases node_into_cases _ _ _ _ _ _ _ hinto with e | ⟨v, e⟩
              · rw [e] at h2
                exact h2
              · rw [e, node_lookup_assign_ne hx.1, node_hasKey_assign_ne hx.1] at h2
                exact h2

/-- The loop passes the identities on in order: every pushed value satisfies
what the body guarantees from the loop's first identity on. -/
theorem node_forEachPush_inv (f : Node → Nat → Option (Node × Nat)) (Q : Nat → Node → Prop)
    (hf : ∀ item a v b, f item a = some (v, b) → a ≤ b ∧ Q a v)
    (hQ : ∀ a b v, a ≤ b → Q b v → Q a v) (items : List Node) (n : Nat) (vs : List Node)
    (n1 : Nat) (h : Node.forEachPush f items n = some (vs, n1)) :
    n ≤ n1 ∧ ∀ v ∈ vs, Q n v := by
  induction items generalizing n vs with
  | nil =>
      simp only [Node.forEachPush, Option.some.injEq, Prod.mk.injEq] at h
      rw [← h.1, ← h.2]
      simp
  | cons item rest ih =>
      simp only [Node.forEachPush] at h
      cases hi : f item n with
      | none => simp [hi] at h
      | some r =>
          obtain ⟨v, a⟩ := r
          simp only [hi] at h
          cases hr : Node.forEachPush f rest a with
          | none => simp [hr] at h
          | some r2 =>
              obtain ⟨ws, b⟩ := r2
              simp only [hr, Option.some.injEq, Prod.mk.injEq] at h
              obtain ⟨hna, hq⟩ := hf item n v a hi
              obtain ⟨hvs, hb⟩ := h
              subst hvs hb
              obtain ⟨hab, hall⟩ := ih a ws hr
              refine ⟨le_trans hna hab, ?_⟩
              intro x hx
              rcases List.mem_cons.mp hx with rfl | hx
              · exact hq
              · exact hQ n a x hna (hall x hx)

mutual
theorem node_built_mono (fresh fresh1 : Nat → Prop) (hf : ∀ i, fresh i → fresh1 i)
    (t v : Node) (h : Node.Built fresh t v) : Node.Built fresh1 t v := by
  match t with
  | .undefined | .null | .bool _ | .num _ | .str _ => simp [Node.Built]
  | .arr _ [] =>
      simp only [Node.Built] at h ⊢
      obtain ⟨id, hid, hv⟩ := h
      exact ⟨id, hf id hid, hv⟩
  | .arr _ (p :: rest) =>
      simp only [Node.Built] at h ⊢
      obtain ⟨id, items, rfl, hid, hall⟩ := h
      refine ⟨id, items, rfl, hf id hid, ?_⟩
      intro item hi
      rcases hall item hi with hb | ⟨copy, hc, e⟩
      · exact Or.inl (node_built_mono fresh fresh1 hf p item hb)
      · exact Or.inr ⟨copy, hf copy hc, e⟩
  | .obj _ props =>
      simp only [Node.Built] at h ⊢
      obtain ⟨id, rprops, rfl, hid, hall⟩ := h
      exact ⟨id, rprops, rfl, hf id hid, node_builtProps_mono fresh fresh1 hf props rprops hall⟩
theorem node_builtProps_mono (fresh fresh1 : Nat → Prop) (hf : ∀ i, fresh i → fresh1 i)
    (props rprops : NodeProps) (h : Node.BuiltProps fresh props rprops) :
    Node.BuiltProps fresh1 props rprops := by
  match props with
  | [] => simp [Node.BuiltProps]
  | (k, t) :: rest =>
      simp only [Node.BuiltProps] at h ⊢
      exact ⟨fun hk => node_built_mono fresh fresh1 hf t _ (h.1 hk),
        node_builtProps_mono fresh fresh1 hf rest rprops h.2⟩
end

theorem node_builtProps_of_forall (fresh : Nat → Prop) (props r : NodeProps)
    (h : ∀ kt ∈ props, Node.hasKey kt.1 r = true →
      Node.Built fresh kt.2 (Node.lookup kt.1 r)) :
    Node.BuiltProps fresh props r := by
  induction props with
  | nil => simp [Node.BuiltProps]
  | cons kt rest ih =>
      obtain ⟨k, t⟩ := kt
      simp only [Node.BuiltProps]
      exact ⟨h (k, t) (List.mem_cons_self _ _),
        ih (fun kt hkt => h kt (List.mem_cons_of_mem _ hkt))⟩

/-- A falsy value is written at a scalar position only, where `Built` says
nothing. -/
theorem node_built_of_falsy (fresh : Nat → Prop) (t v w : Node) (h : Node.Built fresh t v)
    (hv : Node.truthy v = false) : Node.Built fresh t w := by
  cases t with
  | undefined | null | bool | num | str => simp [Node.Built]
  | arr tid items =>
      cases items with
      | nil =>
          simp only [Node.Built] at h
          obtain ⟨id, _, rfl | rfl⟩ := h <;> simp [Node.truthy] at hv
      | cons p rest =>
          simp only [Node.Built] at h
          obtain ⟨id, items, rfl, _⟩ := h
          simp [Node.truthy] at hv
  | obj tid props =>
      simp only [Node.Built] at h
      obtain ⟨id, r, rfl, _⟩ := h
      simp [Node.truthy] at hv

/-- What the two-argument call returns, given what its holder received. -/
theorem node_returned_built (t : Node) (n : Nat) (s1 : NodeProps)
    (h : (s1 = [] ∧ ∃ tid, t = .arr tid []) ∨
      ∃ v, s1 = Node.assign ROOT v [] ∧ Node.Built (fun i => n + 1 ≤ i) t v) :
    Node.Built (fun i => n ≤ i) t (Node.returned n s1) := by
  rcases h with ⟨rfl, tid, rfl⟩ | ⟨v, rfl, hv⟩
  · simp only [Node.Built]
    exact ⟨n, le_refl n, Or.inr (by simp [Node.returned, Node.lookup, Node.truthy])⟩
  · have hv1 : Node.Built (fun i => n ≤ i) t v :=
      node_built_mono _ _ (fun i hi => Nat.le_of_succ_le hi) t v hv
    by_cases htr : Node.truthy v = true
    · simpa [Node.returned, Node.assign, Node.lookup, htr] using hv1
    · have hfalse : Node.truthy v = false := by simpa using htr
      exact node_built_of_falsy _ t v _ hv1 hfalse

mutual
/-- Whatever the four-argument call assigns is built of fresh containers at the
template's array and object positions, and the identities only grow. -/
theorem node_into_built (t u : Node) (s : NodeProps) (k : String) (next : Nat)
    (s1 : NodeProps) (next1 : Nat) (hwf : Node.wf t = true)
    (h : Node.recursive_sanitize_into u t s k next = some (s1, next1)) :
    next ≤ next1 ∧
      ((s1 = s ∧ ∃ tid, t = .arr tid []) ∨
        ∃ v, s1 = Node.assign k v s ∧ Node.Built (fun i => next ≤ i) t v) := by
  match t with
  | .undefined | .bool _ | .num _ | .str _ =>
      simp only [Node.recursive_sanitize_into, Option.some.injEq, Prod.mk.injEq] at h
      exact ⟨by omega, Or.inr ⟨_, h.1.symm, by simp [Node.Built]⟩⟩
  | .null => simp [Node.recursive_sanitize_into] at h
  | .arr tid [] =>
      by_cases hu : Node.isArray u = true
      · simp only [Node.recursive_sanitize_into, hu, if_true, Option.some.injEq,
          Prod.mk.injEq] at h
        exact ⟨by omega, Or.inl ⟨h.1.symm, tid, rfl⟩⟩
      · simp only [Node.recursive_sanitize_into, hu, Bool.false_eq_true, if_false,
          Option.some.injEq, Prod.mk.injEq] at h
        refine ⟨by omega, Or.inr ⟨_, h.1.symm, ?_⟩⟩
        simp only [Node.Built]
        exact ⟨next, le_refl next, Or.inl rfl⟩
  | .arr tid (p :: rest) =>
      simp only [Node.wf, Node.wfItems, Bool.and_eq_true] at hwf
      simp only [Node.recursive_sanitize_into] at h
      cases hlen : Node.getProp u "length" with
      | none => simp [hlen] at h
      | some len =>
          simp only [hlen] at h
          by_cases htr : Node.truthy len = true
          · simp only [htr, if_true] at h
            cases u with
            | arr uid items =>
                simp only at h
                cases hloop : Node.forEachPush
                    (fun item n =>
                      (Node.recursive_sanitize_into item p [] ROOT (n + 1)).map
                        (fun r => (Node.returned n r.1, r.2)))
                    items (next + 1) with
                | none => simp [hloop] at h
                | some r =>
                    obtain ⟨clone, n1⟩ := r
                    simp only [hloop, Option.some.injEq, Prod.mk.injEq] at h
                    obtain ⟨hs, hn⟩ := h
                    subst hs hn
                    have hinv := node_forEachPush_inv _
                      (fun a v => Node.Built (fun i => a ≤ i) p v)
                      (fun item a v b hf => by
                        cases hinto : Node.recursive_sanitize_into item p [] ROOT (a + 1) with
                        | none => simp [hinto] at hf
                        | some r =>
                            obtain ⟨s2, b2⟩ := r
                            simp only [hinto, Option.map_some', Option.some.injEq,
                              Prod.mk.injEq] at hf
                            obtain ⟨hv, hb⟩ := hf
                            subst hv hb
                            obtain ⟨hle, hcases⟩ :=
                              node_into_built p item [] ROOT (a + 1) s2 b2 hwf.1 hinto
                            exact ⟨by omega, node_returned_built p a s2 hcases⟩)
                      (fun a b v hab hb =>
                        node_built_mono _ _ (fun i hi => le_trans hab hi) p v hb)
                      items (next + 1) clone n1 hloop
                    refine ⟨by omega, Or.inr ⟨_, rfl, ?_⟩⟩
                    simp only [Node.Built]
                    refine ⟨next, clone, rfl, le_refl next, ?_⟩
                    intro item hi
                    exact Or.inl (node_built_mono _ _ (fun i hi => Nat.le_of_succ_le hi) p item
                      (hinv.2 item hi))
            | _ => simp at h
          · simp only [htr, Bool.false_eq_true, if_false, Option.some.injEq,
              Prod.mk.injEq] at h
            refine ⟨by omega, Or.inr ⟨_, h.1.symm, ?_⟩⟩
            simp only [Node.Built]
            refine ⟨next, _, rfl, le_refl next, ?_⟩
            intro item hi
            exact Or.inr ⟨next + 1, Nat.le_succ next, by simpa using hi⟩
  | .obj tid props =>
      simp only [Node.wf, Bool.and_eq_true, decide_eq_true_eq] at hwf
      simp only [Node.recursive_sanitize_into] at h
      cases hkeys : Node.sanitize_keys u props [] (next + 1) with
      | none => simp [hkeys] at h
      | some r =>
          obtain ⟨clone, n1⟩ := r
          simp only [hkeys, Option.some.injEq, Prod.mk.injEq] at h
          obtain ⟨hs, hn⟩ := h
          subst hs hn
          obtain ⟨hle, hall⟩ :=
            node_keys_built props u [] (next + 1) clone n1 hwf.1 hwf.2 hkeys
          refine ⟨by omega, Or.inr ⟨_, rfl, ?_⟩⟩
          simp only [Node.Built]
          refine ⟨next, clone, rfl, le_refl next, ?_⟩
          apply node_builtProps_of_forall
          intro kt hkt hhas
          exact node_built_mono _ _ (fun i hi => Nat.le_of_succ_le hi) kt.2 _
            (hall kt hkt (by simp) hhas)
/-- The same for the loop over the template's keys. -/
theorem node_keys_built (props : NodeProps) (u : Node) (clone : NodeProps) (next : Nat)
    (c : NodeProps) (next1 : Nat) (hnd : (props.map Prod.fst).Nodup)
    (hwf : Node.wfProps props = true)
    (h : Node.sanitize_keys u props clone next = some (c, next1)) :
    next ≤ next1 ∧
      ∀ kt ∈ props, kt.1 ∉ clone.map Prod.fst → Node.hasKey kt.1 c = true →
        Node.Built (fun i => next ≤ i) kt.2 (Node.lookup kt.1 c) := by
  match props with
  | [] =>
      simp only [Node.sanitize_keys, Option.some.injEq, Prod.mk.injEq] at h
      exact ⟨by omega, by simp⟩
  | (k, t) :: rest =>
      simp only [List.map_cons, List.nodup_cons] at hnd
      simp only [Node.wfProps, Bool.and_eq_true] at hwf
      simp only [Node.sanitize_keys] at h
      cases hitem : Node.getProp u k with
      | none => simp [hitem] at h
      | some item =>
          simp only [hitem] at h
          cases hinto : Node.recursive_sanitize_into item t clone k next with
          | none => simp [hinto] at h
          | some r =>
              obtain ⟨c1, n1⟩ := r
              simp only [hinto] at h
              obtain ⟨hle1, hstep⟩ := node_into_built t item clone k next c1 n1 hwf.1 hinto
              obtain ⟨hle2, hall⟩ := node_keys_built rest u c1 n1 c next1 hnd.2 hwf.2 h
              refine ⟨le_trans hle1 hle2, ?_⟩
              intro kt hkt hfresh hhas
              rcases List.mem_cons.mp hkt with rfl | hkt
              · have hfr := node_sanitize_keys_frame _ _ _ _ _ _ h k hnd.1
                simp only at hfresh hhas ⊢
                rw [hfr.1]
                rw [hfr.2] at hhas
                rcases hstep with ⟨e, _⟩ | ⟨v, e, hv⟩
                · rw [e, node_hasKey_iff] at hhas
                  exact absurd hhas hfresh
                · rw [e, node_lookup_assign_self]
                  exact hv
              · have hne : kt.1 ≠ k := by
                  intro e
                  apply hnd.1
                  rw [← e]
                  exact List.mem_map_of_mem _ hkt
                have hfresh1 : kt.1 ∉ c1.map Prod.fst := by
                  rcases hstep with ⟨e, _⟩ | ⟨v, e, _⟩
                  · rw [e]
                    exact hfresh
                  · rw [e, node_mem_keys_assign]
                    simp [hne, hfresh]
                exact node_built_mono _ _ (fun i hi => le_trans hle1 hi) kt.2 _
                  (hall kt hkt hfresh1 hhas)
end

/-! ### The two embeddings agree -/

theorem eraseItems_eq_map (items : List Node) :
    Node.eraseItems items = items.map Node.erase := by
  induction items with
  | nil => rfl
  | cons x xs ih => simp [Node.eraseItems, ih]

theorem erase_truthy (v : Node) : truthy (Node.erase v) = Node.truthy v := by
  cases v <;> rfl

theorem erase_isArray (v : Node) : isArray (Node.erase v) = Node.isArray v := by
  cases v <;> rfl

theorem erase_lookup (k : String) (ps : NodeProps) :
    lookup k (Node.eraseProps ps) = Node.erase (Node.lookup k ps) := by
  induction ps with
  | nil => rfl
  | cons kv rest ih =>
      obtain ⟨k1, v⟩ := kv
      by_cases h : k1 = k <;> simp [Node.eraseProps, lookup, Node.lookup, h, ih]

theorem erase_assign (k : String) (v : Node) (s : NodeProps) :
    assign k (Node.erase v) (Node.eraseProps s) = Node.eraseProps (Node.assign k v s) := by
  induction s with
  | nil => rfl
  | cons kv rest ih =>
      obtain ⟨k1, w⟩ := kv
      by_cases h : k1 = k <;> simp [Node.eraseProps, assign, Node.assign, h, ih]

theorem erase_indexed (k : String) (items : List Node) :
    indexed k (items.map Node.erase) = Node.erase (Node.indexed k items) := by
  have hcomp : ((fun p : Nat × Value => decide (toString p.1 = k)) ∘ Prod.map id Node.erase) =
      (fun p : Nat × Node => decide (toString p.1 = k)) := rfl
  simp only [indexed, Node.indexed, List.enum_map, List.find?_map, hcomp]
  cases List.find? (fun p : Nat × Node => decide (toString p.1 = k)) items.enum with
  | none => rfl
  | some p => rfl

theorem erase_getProp (v : Node) (k : String) :
    getProp (Node.erase v) k = (Node.getProp v k).map Node.erase := by
  cases v with
  | undefined | null | bool | num => rfl
  | str s =>
      by_cases h : k = "length"
      · simp [Node.erase, getProp, Node.getProp, h]
      · simp only [Node.erase, getProp, Node.getProp, h, if_false, Option.map_some',
          Option.some.injEq]
        rw [← erase_indexed]
        simp [List.map_map, Function.comp_def, Node.erase]
  | arr id items =>
      by_cases h : k = "length"
      · simp [Node.erase, getProp, Node.getProp, h, eraseItems_eq_map]
      · simp [Node.erase, getProp, Node.getProp, h, eraseItems_eq_map, erase_indexed]
  | obj id props => simp [Node.erase, getProp, Node.getProp, erase_lookup]

theorem erase_nullish (a b : Node) :
    nullish (Node.erase a) (Node.erase b) = Node.erase (Node.nullish a b) := by
  cases a <;> rfl

theorem erase_returned (n : Nat) (s : NodeProps) :
    returned (Node.eraseProps s) = Node.erase (Node.returned n s) := by
  simp only [returned, Node.returned, erase_lookup, erase_truthy]
  split <;> simp [Node.erase]

theorem erase_forEachPush (f : Node → Nat → Option (Node × Nat)) (g : Value → Option Value)
    (h : ∀ item a, (f item a).map (fun r => Node.erase r.1) = g (Node.erase item))
    (items : List Node) (a : Nat) :
    (Node.forEachPush f items a).map (fun r => Node.eraseItems r.1) =
      forEachPush g (Node.eraseItems items) := by
  induction items generalizing a with
  | nil => rfl
  | cons item rest ih =>
      have hi := h item a
      simp only [Node.forEachPush, Node.eraseItems, forEachPush, ← hi]
      cases hf : f item a with
      | none => rfl
      | some r =>
          obtain ⟨v, b⟩ := r
          have hr := ih b
          simp only [Option.map_some']
          rw [← hr]
          cases Node.forEachPush f rest b with
          | none => rfl
          | some r2 => rfl

mutual
/-- Without the identities, the four-argument call on values with identities
is the call of the first embedding. -/
theorem erase_into (t u : Node) (s : NodeProps) (k : String) (next : Nat) :
    (Node.recursive_sanitize_into u t s k next).map (fun r => Node.eraseProps r.1) =
      recursive_sanitize_into (Node.erase u) (Node.erase t) (Node.eraseProps s) k := by
  match t with
  | .undefined | .bool _ | .num _ | .str _ =>
      simp only [Node.recursive_sanitize_into, Node.erase, recursive_sanitize_into,
        Option.map_some', ← erase_assign, ← erase_nullish]
  | .null => rfl
  | .arr tid [] =>
      simp only [Node.recursive_sanitize_into, Node.erase, Node.eraseItems,
        recursive_sanitize_into, erase_isArray]
      split
      · rfl
      · simp only [Option.map_some', ← erase_assign, Node.erase, Node.eraseItems]
  | .arr tid (p :: rest) =>
      have hloop := fun items a => erase_forEachPush
        (fun item n =>
          (Node.recursive_sanitize_into item p [] ROOT (n + 1)).map
            (fun r => (Node.returned n r.1, r.2)))
        (fun item => (recursive_sanitize_into item (Node.erase p) [] ROOT).map returned)
        (fun item a => by
          have h1 := erase_into p item [] ROOT (a + 1)
          simp only [Node.eraseProps] at h1
          beta_reduce
          rw [← h1]
          cases Node.recursive_sanitize_into item p [] ROOT (a + 1) with
          | none => rfl
          | some r => simp [erase_returned a])
        items a
      simp only [Node.recursive_sanitize_into, Node.erase, Node.eraseItems,
        recursive_sanitize_into, erase_getProp]
      cases hlen : Node.getProp u "length" with
      | none => rfl
      | some len =>
          simp only [Option.map_some', erase_truthy]
          by_cases htr : Node.truthy len = true
          · simp only [htr, if_true]
            cases u with
            | arr uid items =>
                simp only [Node.erase]
                rw [← hloop items (next + 1)]
                cases Node.forEachPush
                    (fun item n =>
                      (Node.recursive_sanitize_into item p [] ROOT (n + 1)).map
                        (fun r => (Node.returned n r.1, r.2)))
                    items (next + 1) with
                | none => rfl
                | some r => simp only [Option.map_some', ← erase_assign, Node.erase]
            | _ => rfl
          · simp only [htr, Bool.false_eq_true, if_false, Option.map_some', ← erase_assign,
              Node.erase, Node.eraseItems]
  | .obj tid props =>
      have hkeys := erase_keys props u [] (next + 1)
      simp only [Node.eraseProps] at hkeys
      simp only [Node.recursive_sanitize_into, Node.erase, recursive_sanitize_into, ← hkeys]
      cases Node.sanitize_keys u props [] (next + 1) with
      | none => rfl
      | some r => simp only [Option.map_some', ← erase_assign, Node.erase]
/-- The same for the loop over the template's keys. -/
theorem erase_keys (props : NodeProps) (u : Node) (clone : NodeProps) (next : Nat) :
    (Node.sanitize_keys u props clone next).map (fun r => Node.eraseProps r.1) =
      sanitize_keys (Node.erase u) (Node.eraseProps props) (Node.eraseProps clone) := by
  match props with
  | [] => rfl
  | (k, t) :: rest =>
      simp only [Node.sanitize_keys, Node.eraseProps, sanitize_keys, erase_getProp]
      cases Node.getProp u k with
      | none => rfl
      | some item =>
          simp only [Option.map_some']
          rw [← erase_into t item clone k next]
          cases Node.recursive_sanitize_into item t clone k next with
          | none => rfl
          | some r =>
              obtain ⟨c1, n1⟩ := r
              simp only [Option.map_some']
              exact erase_keys rest u c1 n1
end

/-- Without the identities, the two-argument call on values with identities is
`recursive_sanitize`. -/
theorem erase_recursive_sanitize (u t : Node) (next : Nat) :
    (Node.recursive_sanitize u t next).map (fun r => Node.erase r.1) =
      recursive_sanitize (Node.erase u) (Node.erase t) := by
  have h := erase_into t u [] ROOT (next + 1)
  simp only [Node.eraseProps] at h
  simp only [Node.recursive_sanitize, recursive_sanitize, ← h]
  cases Node.recursive_sanitize_into u t [] ROOT (next + 1) with
  | none => rfl
  | some r => simp [erase_returned next]

end ObjectSanitizer
